import Mathlib

/-!
# Verification of the gogrep pattern engine against its specification

This file gives a shallow embedding, in Lean 4, of the parts of the gogrep
code base (mvdan.cc/gogrep) that the specification claims talk about, and
proves or refutes each claim.

The embedding follows the Go source:

* `Node`, `nodeBody`, `nodeF` — the structural matcher `(*matcher).node`
  together with its helpers `exprs`/`idents`/`stmts`/`fields`
  (matcher source, `package main`, and `main.go`);
* `isWildName`, `fromWildName`, `lookupVal` — the wildcard-name helpers and
  the `values map[string]ast.Node` of the matcher;
* `ParseAny`, `SubPosOffsets` — the host parser wrapper (`gsyntax` package);
* `tokenizeLoop`, `wildcardTok` — the pattern tokenizer (`nls/parse.go`);
* `G`-pipeline models for `All`, `Regexp`, `Run`/`Fatal`, `Suggest`,
  `substNode` (`nls` package).

Go maps are modelled as association lists, Go panics/recovers as `Except`,
and unbounded recursion (which in Go can diverge on pathological inputs)
as fuel-indexed structural recursion, so that every definition is
executable and concrete runs can be checked by `rfl`/`decide`.
-/

/-! ## Identifier names and wildcard encoding

Strings are modelled as `List Char` so that all operations reduce
definitionally.  `wildPrefix`, `isWildName` and `fromWildName` mirror

    const wildPrefix = "_gogrep_"
    func isWildName(name string) bool { return strings.HasPrefix(name, wildPrefix) }
    func fromWildName(name string) string { return strings.TrimPrefix(name, wildPrefix) }
-/

abbrev GName := List Char

def wildPrefix : GName := "_gogrep_".toList

def wildName (name : GName) : GName := wildPrefix ++ name

def isWildName (s : GName) : Bool := wildPrefix.isPrefixOf s

/-- `strings.TrimPrefix` removes the prefix only when it is present. -/
def fromWildName (s : GName) : GName :=
  if wildPrefix.isPrefixOf s then s.drop wildPrefix.length else s

/-! ## The AST node type of the matcher

One constructor per `go/ast` node kind for which `(*matcher).node` has a
complete (returning) case; each constructor keeps exactly the fields that
the matcher compares.  Children that are nilable interfaces or pointers in
`go/ast` are `Option Node`; `*ast.FieldList` children are
`Option (List Node)` (`nil` vs. a list of `Field`s); token kinds, operators
and channel directions are `Nat`; the `CallExpr.Ellipsis` position, which
the matcher only compares for validity via `noPos`, is a `Bool`.
Positions, which never participate in matching, are not represented. -/

inductive Node where
  | ident (name : GName)
  | basicLit (kind : Nat) (value : GName)
  | compositeLit (typ : Option Node) (elts : List Node)
  | funcLit (typ : Node) (body : Node)
  | arrayType (len : Option Node) (elt : Node)
  | mapType (key : Node) (value : Node)
  | structType (fields : Option (List Node))
  | field (names : List Node) (typ : Option Node)
  | funcType (params : Option (List Node)) (results : Option (List Node))
  | interfaceType (methods : Option (List Node))
  | chanType (dir : Nat) (value : Node)
  | ellipsis (elt : Option Node)
  | parenExpr (x : Node)
  | unaryExpr (op : Nat) (x : Node)
  | binaryExpr (op : Nat) (x : Node) (y : Node)
  | callExpr (fn : Node) (args : List Node) (hasEllipsis : Bool)
  | keyValueExpr (key : Node) (value : Node)
  | starExpr (x : Node)
  | selectorExpr (x : Node) (sel : Node)
  | indexExpr (x : Node) (index : Node)
  | sliceExpr (x : Node) (low : Option Node) (high : Option Node) (max : Option Node)
  | typeAssertExpr (x : Node) (typ : Option Node)
  | exprStmt (x : Node)
  | blockStmt (list : List Node)

/-- The matcher's capture map `values map[string]ast.Node`, as an
association list; entries are only ever added for absent keys, so no
duplicate keys arise. -/
abbrev Values := List (GName × Node)

/-- Go map lookup `prev, ok := m.values[name]`. -/
def lookupVal : Values → GName → Option Node
  | [], _ => none
  | (k, v) :: rest, n => if k = n then some v else lookupVal rest n

/-- Go's short-circuiting `&&` with the matcher state threaded through:
if the first comparison failed, the second is never run. -/
def bandM (x : Bool × Values) (g : Values → Bool × Values) : Bool × Values :=
  match x with
  | (false, m) => (false, m)
  | (true, m) => g m

/-- The shared body of `(*matcher).exprs`, `(*matcher).idents` and
`(*matcher).stmts`: length check first, then an element-wise walk that
stops at the first failure. -/
def listLoop (step : Values → Node → Node → Bool × Values) :
    Values → List Node → List Node → Bool × Values
  | m, [], [] => (true, m)
  | m, _ :: _, [] => (false, m)
  | m, [], _ :: _ => (false, m)
  | m, a :: as, b :: bs =>
    match step m a b with
    | (false, m') => (false, m')
    | (true, m') => listLoop step m' as bs

def listMatch (step : Values → Node → Node → Bool × Values)
    (m : Values) (l1 l2 : List Node) : Bool × Values :=
  if l1.length = l2.length then listLoop step m l1 l2 else (false, m)

/-- `(*matcher).fields`: `nil` field lists compare by pointer identity
(`fields1 == fields2`), otherwise by length and element-wise match. -/
def fieldsMatch (step : Values → Node → Node → Bool × Values)
    (m : Values) (f1 f2 : Option (List Node)) : Bool × Values :=
  match f1, f2 with
  | none, none => (true, m)
  | none, some _ => (false, m)
  | some _, none => (false, m)
  | some l1, some l2 => listMatch step m l1 l2

/-- Lift a step on plain nodes from a step on nilable nodes. -/
def stepS (step : Values → Option Node → Option Node → Bool × Values) :
    Values → Node → Node → Bool × Values :=
  fun m a b => step m (some a) (some b)

/-- One unfolding of `(*matcher).node`, with the recursive self-call
abstracted as `step`.  The `nil` handling at the top mirrors

    if expr == nil || node == nil { return expr == node }

and each constructor case mirrors the corresponding `case *ast.T:` of the
Go switch, including the order of the comparisons and the short-circuit
threading of the capture map. -/
def nodeBody (step : Values → Option Node → Option Node → Bool × Values)
    (m : Values) : Option Node → Option Node → Bool × Values
  | none, none => (true, m)
  | none, some _ => (false, m)
  | some _, none => (false, m)
  | some e, some n =>
    match e with
    | .ident xname =>
      if !isWildName xname then
        -- not a wildcard
        match n with
        | .ident yname => (decide (xname = yname), m)
        | _ => (false, m)
      else
        let name := fromWildName xname
        if name = "_".toList then
          -- values are discarded, matches anything
          (true, m)
        else
          match lookupVal m name with
          | none =>
            -- first occurrence, record value
            (true, (name, n) :: m)
          | some prev =>
            -- multiple uses must match
            step m (some prev) (some n)
    | .basicLit xkind xvalue =>
      match n with
      | .basicLit ykind yvalue => (decide (xkind = ykind) && decide (xvalue = yvalue), m)
      | _ => (false, m)
    | .compositeLit xtyp xelts =>
      match n with
      | .compositeLit ytyp yelts =>
        bandM (step m xtyp ytyp) fun m' => listMatch (stepS step) m' xelts yelts
      | _ => (false, m)
    | .funcLit xtyp xbody =>
      match n with
      | .funcLit ytyp ybody =>
        bandM (step m (some xtyp) (some ytyp)) fun m' => step m' (some xbody) (some ybody)
      | _ => (false, m)
    | .arrayType xlen xelt =>
      match n with
      | .arrayType ylen yelt =>
        bandM (step m xlen ylen) fun m' => step m' (some xelt) (some yelt)
      | _ => (false, m)
    | .mapType xkey xvalue =>
      match n with
      | .mapType ykey yvalue =>
        bandM (step m (some xkey) (some ykey)) fun m' => step m' (some xvalue) (some yvalue)
      | _ => (false, m)
    | .structType xfields =>
      match n with
      | .structType yfields => fieldsMatch (stepS step) m xfields yfields
      | _ => (false, m)
    | .field xnames xtyp =>
      match n with
      | .field ynames ytyp =>
        bandM (listMatch (stepS step) m xnames ynames) fun m' => step m' xtyp ytyp
      | _ => (false, m)
    | .funcType xparams xresults =>
      match n with
      | .funcType yparams yresults =>
        bandM (fieldsMatch (stepS step) m xparams yparams) fun m' =>
          fieldsMatch (stepS step) m' xresults yresults
      | _ => (false, m)
    | .interfaceType xmethods =>
      match n with
      | .interfaceType ymethods => fieldsMatch (stepS step) m xmethods ymethods
      | _ => (false, m)
    | .chanType xdir xvalue =>
      match n with
      | .chanType ydir yvalue =>
        bandM (decide (xdir = ydir), m) fun m' => step m' (some xvalue) (some yvalue)
      | _ => (false, m)
    | .ellipsis xelt =>
      match n with
      | .ellipsis yelt => step m xelt yelt
      | _ => (false, m)
    | .parenExpr xx =>
      match n with
      | .parenExpr yx => step m (some xx) (some yx)
      | _ => (false, m)
    | .unaryExpr xop xx =>
      match n with
      | .unaryExpr yop yx =>
        bandM (decide (xop = yop), m) fun m' => step m' (some xx) (some yx)
      | _ => (false, m)
    | .binaryExpr xop xx xy =>
      match n with
      | .binaryExpr yop yx yy =>
        bandM (decide (xop = yop), m) fun m' =>
          bandM (step m' (some xx) (some yx)) fun m'' => step m'' (some xy) (some yy)
      | _ => (false, m)
    | .callExpr xfn xargs xell =>
      match n with
      | .callExpr yfn yargs yell =>
        bandM (step m (some xfn) (some yfn)) fun m' =>
          bandM (listMatch (stepS step) m' xargs yargs) fun m'' =>
            -- noPos: only the validity of the two positions is compared
            (decide (xell = yell), m'')
      | _ => (false, m)
    | .keyValueExpr xkey xvalue =>
      match n with
      | .keyValueExpr ykey yvalue =>
        bandM (step m (some xkey) (some ykey)) fun m' => step m' (some xvalue) (some yvalue)
      | _ => (false, m)
    | .starExpr xx =>
      match n with
      | .starExpr yx => step m (some xx) (some yx)
      | _ => (false, m)
    | .selectorExpr xx xsel =>
      match n with
      | .selectorExpr yx ysel =>
        bandM (step m (some xx) (some yx)) fun m' => step m' (some xsel) (some ysel)
      | _ => (false, m)
    | .indexExpr xx xindex =>
      match n with
      | .indexExpr yx yindex =>
        bandM (step m (some xx) (some yx)) fun m' => step m' (some xindex) (some yindex)
      | _ => (false, m)
    | .sliceExpr xx xlow xhigh xmax =>
      match n with
      | .sliceExpr yx ylow yhigh ymax =>
        bandM (step m (some xx) (some yx)) fun m' =>
          bandM (step m' xlow ylow) fun m'' =>
            bandM (step m'' xhigh yhigh) fun m3 => step m3 xmax ymax
      | _ => (false, m)
    | .typeAssertExpr xx xtyp =>
      match n with
      | .typeAssertExpr yx ytyp =>
        bandM (step m (some xx) (some yx)) fun m' => step m' xtyp ytyp
      | _ => (false, m)
    | .exprStmt xx =>
      match n with
      | .exprStmt yx => step m (some xx) (some yx)
      | _ => (false, m)
    | .blockStmt xlist =>
      match n with
      | .blockStmt ylist => listMatch (stepS step) m xlist ylist
      | _ => (false, m)

/-- `(*matcher).node`, fuel-indexed: `fuel` bounds the recursion depth.
The Go function recurses without any bound (and can in fact diverge when a
capture map entry refers back to a wildcard); every theorem below supplies
enough fuel for the nodes involved, so exhaustion never fires there. -/
def nodeF : Nat → Values → Option Node → Option Node → Bool × Values
  | 0, m, _, _ => (false, m)
  | fuel + 1, m, e, n => nodeBody (nodeF fuel) m e n

theorem nodeF_succ (fuel : Nat) (m : Values) (e n : Option Node) :
    nodeF (fuel + 1) m e n = nodeBody (nodeF fuel) m e n := rfl

/-! ## Wildcard-free nodes and structural equality

`WildFree n` says that no identifier anywhere in `n` carries the reserved
wildcard prefix; nodes taken from the searched program are of this form.
On such nodes the matcher's comparison coincides with plain structural
equality of `Node`, which is the content of `nodeF_wildFree` below. -/

inductive WildFree : Node → Prop
  | ident {n} : isWildName n = false → WildFree (.ident n)
  | basicLit {k v} : WildFree (.basicLit k v)
  | compositeLit {typ elts} : (∀ x ∈ typ, WildFree x) → (∀ x ∈ elts, WildFree x) →
      WildFree (.compositeLit typ elts)
  | funcLit {typ body} : WildFree typ → WildFree body → WildFree (.funcLit typ body)
  | arrayType {len elt} : (∀ x ∈ len, WildFree x) → WildFree elt → WildFree (.arrayType len elt)
  | mapType {key value} : WildFree key → WildFree value → WildFree (.mapType key value)
  | structType {fields} : (∀ l ∈ fields, ∀ x ∈ l, WildFree x) → WildFree (.structType fields)
  | field {names typ} : (∀ x ∈ names, WildFree x) → (∀ x ∈ typ, WildFree x) →
      WildFree (.field names typ)
  | funcType {params results} : (∀ l ∈ params, ∀ x ∈ l, WildFree x) →
      (∀ l ∈ results, ∀ x ∈ l, WildFree x) → WildFree (.funcType params results)
  | interfaceType {methods} : (∀ l ∈ methods, ∀ x ∈ l, WildFree x) →
      WildFree (.interfaceType methods)
  | chanType {dir value} : WildFree value → WildFree (.chanType dir value)
  | ellipsis {elt} : (∀ x ∈ elt, WildFree x) → WildFree (.ellipsis elt)
  | parenExpr {x} : WildFree x → WildFree (.parenExpr x)
  | unaryExpr {op x} : WildFree x → WildFree (.unaryExpr op x)
  | binaryExpr {op x y} : WildFree x → WildFree y → WildFree (.binaryExpr op x y)
  | callExpr {fn args ell} : WildFree fn → (∀ x ∈ args, WildFree x) →
      WildFree (.callExpr fn args ell)
  | keyValueExpr {key value} : WildFree key → WildFree value → WildFree (.keyValueExpr key value)
  | starExpr {x} : WildFree x → WildFree (.starExpr x)
  | selectorExpr {x sel} : WildFree x → WildFree sel → WildFree (.selectorExpr x sel)
  | indexExpr {x index} : WildFree x → WildFree index → WildFree (.indexExpr x index)
  | sliceExpr {x low high max} : WildFree x → (∀ v ∈ low, WildFree v) →
      (∀ v ∈ high, WildFree v) → (∀ v ∈ max, WildFree v) → WildFree (.sliceExpr x low high max)
  | typeAssertExpr {x typ} : WildFree x → (∀ v ∈ typ, WildFree v) →
      WildFree (.typeAssertExpr x typ)
  | exprStmt {x} : WildFree x → WildFree (.exprStmt x)
  | blockStmt {l} : (∀ x ∈ l, WildFree x) → WildFree (.blockStmt l)

/-- Specification of a matcher component: its boolean result decides `P`
and it leaves the capture map untouched. -/
def CompSpec (P : Prop) (r : Bool × Values) (m : Values) : Prop :=
  (r.1 = true ↔ P) ∧ r.2 = m

theorem CompSpec.false_of_not {P : Prop} {r : Bool × Values} {m : Values}
    (h : CompSpec P r m) (hnp : ¬ P) : r = (false, m) := by
  rcases r with ⟨ok, m'⟩
  cases ok with
  | false => simpa using h.2
  | true => exact absurd (h.1.mp rfl) hnp

theorem bandM_spec {P Q : Prop} {x : Bool × Values} {g : Values → Bool × Values} {m : Values}
    (hx : CompSpec P x m) (hg : ∀ m', CompSpec Q (g m') m') :
    CompSpec (P ∧ Q) (bandM x g) m := by
  rcases x with ⟨ok, m2⟩
  cases ok with
  | false =>
    have hnp : ¬ P := fun hp => by simpa using hx.1.mpr hp
    exact ⟨by simp [bandM]; intro hp; exact absurd hp hnp, by simpa [bandM] using hx.2⟩
  | true =>
    have hp : P := hx.1.mp rfl
    have hm : m2 = m := hx.2
    subst hm
    have := hg m2
    exact ⟨by simp [bandM]; rw [this.1]; simp [hp], by simpa [bandM] using this.2⟩

theorem pure_spec (b : Bool) (m : Values) : CompSpec (b = true) (b, m) m := ⟨Iff.rfl, rfl⟩

theorem listMatch_spec (step : Values → Node → Node → Bool × Values)
    (l1 l2 : List Node) (m : Values)
    (hstep : ∀ a ∈ l1, ∀ b m', CompSpec (a = b) (step m' a b) m') :
    CompSpec (l1 = l2) (listMatch step m l1 l2) m := by
  unfold listMatch
  by_cases hlen : l1.length = l2.length
  · rw [if_pos hlen]
    induction l1 generalizing l2 m with
    | nil =>
      cases l2 with
      | nil => exact ⟨by simp [listLoop], rfl⟩
      | cons b bs => simp at hlen
    | cons a as ih =>
      cases l2 with
      | nil => simp at hlen
      | cons b bs =>
        have ha := hstep a (by simp) b m
        simp only [listLoop]
        rcases hab : step m a b with ⟨ok, m2⟩
        rw [hab] at ha
        cases ok with
        | false =>
          refine ⟨?_, ha.2⟩
          simp only [Bool.false_eq_true, false_iff]
          intro h
          injection h with h1 h2
          exact absurd (ha.1.mpr h1) (by simp)
        | true =>
          have haeq : a = b := ha.1.mp rfl
          have hm : m2 = m := ha.2
          subst haeq
          subst hm
          have hrest := ih bs m2 (fun x hx => hstep x (List.mem_cons_of_mem _ hx))
            (by simpa using hlen)
          refine ⟨?_, hrest.2⟩
          rw [hrest.1]
          simp
  · rw [if_neg hlen]
    refine ⟨?_, rfl⟩
    simp only [Bool.false_eq_true, false_iff]
    intro h
    exact hlen (by rw [h])

theorem fieldsMatch_spec (step : Values → Node → Node → Bool × Values)
    (f1 f2 : Option (List Node)) (m : Values)
    (hstep : ∀ l ∈ f1, ∀ a ∈ l, ∀ b m', CompSpec (a = b) (step m' a b) m') :
    CompSpec (f1 = f2) (fieldsMatch step m f1 f2) m := by
  cases f1 with
  | none =>
    cases f2 with
    | none => exact ⟨by simp [fieldsMatch], rfl⟩
    | some l2 => exact ⟨by simp [fieldsMatch], rfl⟩
  | some l1 =>
    cases f2 with
    | none => exact ⟨by simp [fieldsMatch], rfl⟩
    | some l2 =>
      have := listMatch_spec step l1 l2 m (hstep l1 (by simp))
      exact ⟨by rw [show fieldsMatch step m (some l1) (some l2) = listMatch step m l1 l2 from rfl,
        this.1]; simp, this.2⟩

theorem CompSpec_false {P : Prop} (m : Values) (hnp : ¬ P) : CompSpec P (false, m) m :=
  ⟨by simp [hnp], rfl⟩

theorem CompSpec.congr_prop {P Q : Prop} {r : Bool × Values} {m : Values}
    (h : CompSpec P r m) (hpq : P ↔ Q) : CompSpec Q r m := ⟨h.1.trans hpq, h.2⟩

theorem sizeOf_lt_of_mem_opt {x : Node} {o : Option Node} (h : x ∈ o) : sizeOf x < sizeOf o := by
  cases o with
  | none => simp at h
  | some v =>
    obtain rfl : v = x := by simpa using h
    simp

theorem sizeOf_lt_of_mem_optList {x : Node} {l : List Node} {o : Option (List Node)}
    (hl : l ∈ o) (hx : x ∈ l) : sizeOf x < sizeOf o := by
  cases o with
  | none => simp at hl
  | some l' =>
    obtain rfl : l' = l := by simpa using hl
    have := List.sizeOf_lt_of_mem hx
    simp
    omega

/-- On nilable children the matcher's `nil` check makes the comparison
decide equality of the two `Option`s, provided the recursive step does so
on the inner nodes. -/
theorem nodeF_opt_spec (f : Nat) (hf : 1 ≤ f) (o1 o2 : Option Node) (m : Values)
    (h : ∀ x ∈ o1, ∀ y m', CompSpec (x = y) (nodeF f m' (some x) (some y)) m') :
    CompSpec (o1 = o2) (nodeF f m o1 o2) m := by
  obtain ⟨f', rfl⟩ : ∃ f', f = f' + 1 := ⟨f - 1, by omega⟩
  cases o1 with
  | none =>
    cases o2 with
    | none => exact ⟨by simp [nodeF_succ, nodeBody], rfl⟩
    | some y => exact ⟨by simp [nodeF_succ, nodeBody], rfl⟩
  | some x =>
    cases o2 with
    | none => exact ⟨by simp [nodeF_succ, nodeBody], rfl⟩
    | some y => exact (h x (by simp) y m).congr_prop (by simp)

theorem Node.one_le_sizeOf : ∀ (n : Node), 1 ≤ sizeOf n := by
  intro n
  cases n <;> simp <;> try omega

theorem one_le_sizeOf_opt (o : Option Node) : 1 ≤ sizeOf o := by
  cases o <;> simp

/-- On a wildcard-free pattern node, `(*matcher).node` succeeds exactly on
structurally equal candidates, and never touches the capture map. -/
theorem nodeF_wildFree {prev : Node} (h : WildFree prev) :
    ∀ fuel, sizeOf prev < fuel → ∀ (cand : Node) (m : Values),
      CompSpec (prev = cand) (nodeF fuel m (some prev) (some cand)) m := by
  induction h with
  | @ident n hw =>
    intro fuel hf cand m
    obtain ⟨f, rfl⟩ : ∃ f, fuel = f + 1 := ⟨fuel - 1, by omega⟩
    rw [nodeF_succ]
    cases cand <;> simp only [nodeBody, hw, Bool.not_false, if_true] <;>
      first
        | exact CompSpec_false m (fun h => Node.noConfusion h)
        | exact CompSpec.congr_prop ⟨Iff.rfl, rfl⟩ (by simp)
  | @basicLit k v =>
    intro fuel hf cand m
    obtain ⟨f, rfl⟩ : ∃ f, fuel = f + 1 := ⟨fuel - 1, by omega⟩
    rw [nodeF_succ]
    cases cand
    case basicLit yk yv =>
      exact CompSpec.congr_prop (P := ((decide (k = yk) && decide (v = yv)) = true))
        ⟨Iff.rfl, rfl⟩ (by simp)
    all_goals exact CompSpec_false m (fun h => Node.noConfusion h)
  | @compositeLit typ elts htyp helts ihtyp ihelts =>
    intro fuel hf cand m
    obtain ⟨f, rfl⟩ : ∃ f, fuel = f + 1 := ⟨fuel - 1, by omega⟩
    simp only [Node.compositeLit.sizeOf_spec] at hf
    have h1 := one_le_sizeOf_opt typ
    rw [nodeF_succ]
    cases cand
    case compositeLit yt ye =>
      exact (bandM_spec
        (nodeF_opt_spec f (by omega) typ yt m (fun x hx y m' =>
          ihtyp x hx f (by have := sizeOf_lt_of_mem_opt hx; omega) y m'))
        (fun m' => listMatch_spec _ elts ye m' (fun a ha b m'' =>
          ihelts a ha f (by have := List.sizeOf_lt_of_mem ha; omega) b m''))).congr_prop
        (by simp)
    all_goals exact CompSpec_false m (fun h => Node.noConfusion h)
  | @funcLit typ body ht hb iht ihb =>
    intro fuel hf cand m
    obtain ⟨f, rfl⟩ : ∃ f, fuel = f + 1 := ⟨fuel - 1, by omega⟩
    simp only [Node.funcLit.sizeOf_spec] at hf
    rw [nodeF_succ]
    cases cand
    case funcLit yt yb =>
      exact (bandM_spec (iht f (by omega) yt m)
        (fun m' => ihb f (by omega) yb m')).congr_prop (by simp)
    all_goals exact CompSpec_false m (fun h => Node.noConfusion h)
  | @arrayType len elt hl he ihl ihe =>
    intro fuel hf cand m
    obtain ⟨f, rfl⟩ : ∃ f, fuel = f + 1 := ⟨fuel - 1, by omega⟩
    simp only [Node.arrayType.sizeOf_spec] at hf
    have h1 := one_le_sizeOf_opt len
    rw [nodeF_succ]
    cases cand
    case arrayType yl ye =>
      exact (bandM_spec
        (nodeF_opt_spec f (by omega) len yl m (fun x hx y m' =>
          ihl x hx f (by have := sizeOf_lt_of_mem_opt hx; omega) y m'))
        (fun m' => ihe f (by omega) ye m')).congr_prop (by simp)
    all_goals exact CompSpec_false m (fun h => Node.noConfusion h)
  | @mapType key value hk hv ihk ihv =>
    intro fuel hf cand m
    obtain ⟨f, rfl⟩ : ∃ f, fuel = f + 1 := ⟨fuel - 1, by omega⟩
    simp only [Node.mapType.sizeOf_spec] at hf
    rw [nodeF_succ]
    cases cand
    case mapType yk yv =>
      exact (bandM_spec (ihk f (by omega) yk m)
        (fun m' => ihv f (by omega) yv m')).congr_prop (by simp)
    all_goals exact CompSpec_false m (fun h => Node.noConfusion h)
  | @structType fields hfs ihfs =>
    intro fuel hf cand m
    obtain ⟨f, rfl⟩ : ∃ f, fuel = f + 1 := ⟨fuel - 1, by omega⟩
    simp only [Node.structType.sizeOf_spec] at hf
    rw [nodeF_succ]
    cases cand
    case structType yfs =>
      exact (fieldsMatch_spec _ fields yfs m (fun l hl a ha b m' =>
        ihfs l hl a ha f (by have := sizeOf_lt_of_mem_optList hl ha; omega) b m')).congr_prop
        (by simp)
    all_goals exact CompSpec_false m (fun h => Node.noConfusion h)
  | @field names typ hn ht ihn iht =>
    intro fuel hf cand m
    obtain ⟨f, rfl⟩ : ∃ f, fuel = f + 1 := ⟨fuel - 1, by omega⟩
    simp only [Node.field.sizeOf_spec] at hf
    have h1 := one_le_sizeOf_opt typ
    rw [nodeF_succ]
    cases cand
    case field yn yt =>
      exact (bandM_spec
        (listMatch_spec _ names yn m (fun a ha b m'' =>
          ihn a ha f (by have := List.sizeOf_lt_of_mem ha; omega) b m''))
        (fun m' => nodeF_opt_spec f (by omega) typ yt m' (fun x hx y m'' =>
          iht x hx f (by have := sizeOf_lt_of_mem_opt hx; omega) y m''))).congr_prop
        (by simp)
    all_goals exact CompSpec_false m (fun h => Node.noConfusion h)
  | @funcType params results hp hr ihp ihr =>
    intro fuel hf cand m
    obtain ⟨f, rfl⟩ : ∃ f, fuel = f + 1 := ⟨fuel - 1, by omega⟩
    simp only [Node.funcType.sizeOf_spec] at hf
    rw [nodeF_succ]
    cases cand
    case funcType yp yr =>
      exact (bandM_spec
        (fieldsMatch_spec _ params yp m (fun l hl a ha b m' =>
          ihp l hl a ha f (by have := sizeOf_lt_of_mem_optList hl ha; omega) b m'))
        (fun m' => fieldsMatch_spec _ results yr m' (fun l hl a ha b m'' =>
          ihr l hl a ha f (by have := sizeOf_lt_of_mem_optList hl ha; omega) b m''))).congr_prop
        (by simp)
    all_goals exact CompSpec_false m (fun h => Node.noConfusion h)
  | @interfaceType methods hm ihm =>
    intro fuel hf cand m
    obtain ⟨f, rfl⟩ : ∃ f, fuel = f + 1 := ⟨fuel - 1, by omega⟩
    simp only [Node.interfaceType.sizeOf_spec] at hf
    rw [nodeF_succ]
    cases cand
    case interfaceType ym =>
      exact (fieldsMatch_spec _ methods ym m (fun l hl a ha b m' =>
        ihm l hl a ha f (by have := sizeOf_lt_of_mem_optList hl ha; omega) b m')).congr_prop
        (by simp)
    all_goals exact CompSpec_false m (fun h => Node.noConfusion h)
  | @chanType dir value hv ihv =>
    intro fuel hf cand m
    obtain ⟨f, rfl⟩ : ∃ f, fuel = f + 1 := ⟨fuel - 1, by omega⟩
    simp only [Node.chanType.sizeOf_spec] at hf
    rw [nodeF_succ]
    cases cand
    case chanType yd yv =>
      exact (bandM_spec (pure_spec _ m)
        (fun m' => ihv f (by omega) yv m')).congr_prop (by simp)
    all_goals exact CompSpec_false m (fun h => Node.noConfusion h)
  | @ellipsis elt he ihe =>
    intro fuel hf cand m
    obtain ⟨f, rfl⟩ : ∃ f, fuel = f + 1 := ⟨fuel - 1, by omega⟩
    simp only [Node.ellipsis.sizeOf_spec] at hf
    have h1 := one_le_sizeOf_opt elt
    rw [nodeF_succ]
    cases cand
    case ellipsis ye =>
      exact (nodeF_opt_spec f (by omega) elt ye m (fun x hx y m' =>
        ihe x hx f (by have := sizeOf_lt_of_mem_opt hx; omega) y m')).congr_prop (by simp)
    all_goals exact CompSpec_false m (fun h => Node.noConfusion h)
  | @parenExpr x hx ihx =>
    intro fuel hf cand m
    obtain ⟨f, rfl⟩ : ∃ f, fuel = f + 1 := ⟨fuel - 1, by omega⟩
    simp only [Node.parenExpr.sizeOf_spec] at hf
    rw [nodeF_succ]
    cases cand
    case parenExpr yx => exact (ihx f (by omega) yx m).congr_prop (by simp)
    all_goals exact CompSpec_false m (fun h => Node.noConfusion h)
  | @unaryExpr op x hx ihx =>
    intro fuel hf cand m
    obtain ⟨f, rfl⟩ : ∃ f, fuel = f + 1 := ⟨fuel - 1, by omega⟩
    simp only [Node.unaryExpr.sizeOf_spec] at hf
    rw [nodeF_succ]
    cases cand
    case unaryExpr yop yx =>
      exact (bandM_spec (pure_spec _ m)
        (fun m' => ihx f (by omega) yx m')).congr_prop (by simp)
    all_goals exact CompSpec_false m (fun h => Node.noConfusion h)
  | @binaryExpr op x y hx hy ihx ihy =>
    intro fuel hf cand m
    obtain ⟨f, rfl⟩ : ∃ f, fuel = f + 1 := ⟨fuel - 1, by omega⟩
    simp only [Node.binaryExpr.sizeOf_spec] at hf
    rw [nodeF_succ]
    cases cand
    case binaryExpr yop yx yy =>
      exact (bandM_spec (pure_spec _ m)
        (fun m' => bandM_spec (ihx f (by omega) yx m')
          (fun m'' => ihy f (by omega) yy m''))).congr_prop (by simp [and_assoc])
    all_goals exact CompSpec_false m (fun h => Node.noConfusion h)
  | @callExpr fn args ell hfn hargs ihfn ihargs =>
    intro fuel hf cand m
    obtain ⟨f, rfl⟩ : ∃ f, fuel = f + 1 := ⟨fuel - 1, by omega⟩
    simp only [Node.callExpr.sizeOf_spec] at hf
    rw [nodeF_succ]
    cases cand
    case callExpr yfn yargs yell =>
      exact (bandM_spec (ihfn f (by omega) yfn m)
        (fun m' => bandM_spec
          (listMatch_spec _ args yargs m' (fun a ha b m'' =>
            ihargs a ha f (by have := List.sizeOf_lt_of_mem ha; omega) b m''))
          (fun m'' => pure_spec _ m''))).congr_prop (by simp [and_assoc])
    all_goals exact CompSpec_false m (fun h => Node.noConfusion h)
  | @keyValueExpr key value hk hv ihk ihv =>
    intro fuel hf cand m
    obtain ⟨f, rfl⟩ : ∃ f, fuel = f + 1 := ⟨fuel - 1, by omega⟩
    simp only [Node.keyValueExpr.sizeOf_spec] at hf
    rw [nodeF_succ]
    cases cand
    case keyValueExpr yk yv =>
      exact (bandM_spec (ihk f (by omega) yk m)
        (fun m' => ihv f (by omega) yv m')).congr_prop (by simp)
    all_goals exact CompSpec_false m (fun h => Node.noConfusion h)
  | @starExpr x hx ihx =>
    intro fuel hf cand m
    obtain ⟨f, rfl⟩ : ∃ f, fuel = f + 1 := ⟨fuel - 1, by omega⟩
    simp only [Node.starExpr.sizeOf_spec] at hf
    rw [nodeF_succ]
    cases cand
    case starExpr yx => exact (ihx f (by omega) yx m).congr_prop (by simp)
    all_goals exact CompSpec_false m (fun h => Node.noConfusion h)
  | @selectorExpr x sel hx hs ihx ihs =>
    intro fuel hf cand m
    obtain ⟨f, rfl⟩ : ∃ f, fuel = f + 1 := ⟨fuel - 1, by omega⟩
    simp only [Node.selectorExpr.sizeOf_spec] at hf
    rw [nodeF_succ]
    cases cand
    case selectorExpr yx ys =>
      exact (bandM_spec (ihx f (by omega) yx m)
        (fun m' => ihs f (by omega) ys m')).congr_prop (by simp)
    all_goals exact CompSpec_false m (fun h => Node.noConfusion h)
  | @indexExpr x index hx hi ihx ihi =>
    intro fuel hf cand m
    obtain ⟨f, rfl⟩ : ∃ f, fuel = f + 1 := ⟨fuel - 1, by omega⟩
    simp only [Node.indexExpr.sizeOf_spec] at hf
    rw [nodeF_succ]
    cases cand
    case indexExpr yx yi =>
      exact (bandM_spec (ihx f (by omega) yx m)
        (fun m' => ihi f (by omega) yi m')).congr_prop (by simp)
    all_goals exact CompSpec_false m (fun h => Node.noConfusion h)
  | @sliceExpr x low high max hx hl hh hm ihx ihl ihh ihm =>
    intro fuel hf cand m
    obtain ⟨f, rfl⟩ : ∃ f, fuel = f + 1 := ⟨fuel - 1, by omega⟩
    simp only [Node.sliceExpr.sizeOf_spec] at hf
    have h1 := one_le_sizeOf_opt low
    have h2 := one_le_sizeOf_opt high
    have h3 := one_le_sizeOf_opt max
    rw [nodeF_succ]
    cases cand
    case sliceExpr yx ylow yhigh ymax =>
      exact (bandM_spec (ihx f (by omega) yx m)
        (fun m' => bandM_spec
          (nodeF_opt_spec f (by omega) low ylow m' (fun v hv y m'' =>
            ihl v hv f (by have := sizeOf_lt_of_mem_opt hv; omega) y m''))
          (fun m'' => bandM_spec
            (nodeF_opt_spec f (by omega) high yhigh m'' (fun v hv y m3 =>
              ihh v hv f (by have := sizeOf_lt_of_mem_opt hv; omega) y m3))
            (fun m3 => nodeF_opt_spec f (by omega) max ymax m3 (fun v hv y m4 =>
              ihm v hv f (by have := sizeOf_lt_of_mem_opt hv; omega) y m4))))).congr_prop
        (by simp [and_assoc])
    all_goals exact CompSpec_false m (fun h => Node.noConfusion h)
  | @typeAssertExpr x typ hx ht ihx iht =>
    intro fuel hf cand m
    obtain ⟨f, rfl⟩ : ∃ f, fuel = f + 1 := ⟨fuel - 1, by omega⟩
    simp only [Node.typeAssertExpr.sizeOf_spec] at hf
    have h1 := one_le_sizeOf_opt typ
    rw [nodeF_succ]
    cases cand
    case typeAssertExpr yx yt =>
      exact (bandM_spec (ihx f (by omega) yx m)
        (fun m' => nodeF_opt_spec f (by omega) typ yt m' (fun v hv y m'' =>
          iht v hv f (by have := sizeOf_lt_of_mem_opt hv; omega) y m''))).congr_prop (by simp)
    all_goals exact CompSpec_false m (fun h => Node.noConfusion h)
  | @exprStmt x hx ihx =>
    intro fuel hf cand m
    obtain ⟨f, rfl⟩ : ∃ f, fuel = f + 1 := ⟨fuel - 1, by omega⟩
    simp only [Node.exprStmt.sizeOf_spec] at hf
    rw [nodeF_succ]
    cases cand
    case exprStmt yx => exact (ihx f (by omega) yx m).congr_prop (by simp)
    all_goals exact CompSpec_false m (fun h => Node.noConfusion h)
  | @blockStmt l hl ihl =>
    intro fuel hf cand m
    obtain ⟨f, rfl⟩ : ∃ f, fuel = f + 1 := ⟨fuel - 1, by omega⟩
    simp only [Node.blockStmt.sizeOf_spec] at hf
    rw [nodeF_succ]
    cases cand
    case blockStmt yl =>
      exact (listMatch_spec _ l yl m (fun a ha b m'' =>
        ihl a ha f (by have := List.sizeOf_lt_of_mem ha; omega) b m'')).congr_prop (by simp)
    all_goals exact CompSpec_false m (fun h => Node.noConfusion h)

/-- C1: During a single match attempt, the first occurrence of a wildcard
whose name is not `_` binds the candidate node under that name, and every
later occurrence of the same name succeeds if and only if the candidate
node is structurally equal to the previously bound node; a wildcard named
`_` succeeds on any candidate node, is never recorded in the capture map,
and does not unify across occurrences. -/
theorem C1_wildcard_unification (w : GName) (hw : isWildName w = true)
    (fuel : Nat) (m : Values) (cand : Node) :
    (fromWildName w = "_".toList →
        nodeF (fuel + 1) m (some (.ident w)) (some cand) = (true, m)) ∧
    (fromWildName w ≠ "_".toList → lookupVal m (fromWildName w) = none →
        nodeF (fuel + 1) m (some (.ident w)) (some cand) =
          (true, (fromWildName w, cand) :: m)) ∧
    (∀ prev, fromWildName w ≠ "_".toList → lookupVal m (fromWildName w) = some prev →
        WildFree prev → sizeOf prev < fuel →
        ((nodeF (fuel + 1) m (some (.ident w)) (some cand)).1 = true ↔ prev = cand) ∧
          (nodeF (fuel + 1) m (some (.ident w)) (some cand)).2 = m) := by
  refine ⟨?_, ?_, ?_⟩
  · intro hu
    rw [nodeF_succ]
    simp [nodeBody, hw, hu]
  · intro hne hlook
    have hne' : ¬ fromWildName w = ['_'] := by simpa using hne
    rw [nodeF_succ]
    simp [nodeBody, hw, hne', hlook]
  · intro prev hne hlook hwf hsz
    have hne' : ¬ fromWildName w = ['_'] := by simpa using hne
    rw [nodeF_succ]
    have hred : nodeBody (nodeF fuel) m (some (.ident w)) (some cand) =
        nodeF fuel m (some prev) (some cand) := by
      simp [nodeBody, hw, hne', hlook]
    rw [hred]
    exact nodeF_wildFree hwf fuel hsz cand m

/-- Closed instance of `C1_wildcard_unification`: with `x` already bound to
the identifier `a`, a second `$x` occurrence against candidate `a` succeeds
(structural equality) and leaves the capture map unchanged. -/
theorem C1_wildcard_unification_witness :
    isWildName (wildName "x".toList) = true ∧
    (((nodeF (sizeOf (Node.ident "a".toList) + 1 + 1)
        [("x".toList, Node.ident "a".toList)]
        (some (.ident (wildName "x".toList))) (some (.ident "a".toList))).1 = true ↔
      Node.ident "a".toList = Node.ident "a".toList) ∧
    (nodeF (sizeOf (Node.ident "a".toList) + 1 + 1)
        [("x".toList, Node.ident "a".toList)]
        (some (.ident (wildName "x".toList))) (some (.ident "a".toList))).2 =
      [("x".toList, Node.ident "a".toList)]) := by
  refine ⟨by decide, ?_⟩
  exact (C1_wildcard_unification (wildName "x".toList) (by decide)
      (sizeOf (Node.ident "a".toList) + 1) [("x".toList, Node.ident "a".toList)]
      (.ident "a".toList)).2.2 (Node.ident "a".toList)
    (by decide) rfl (WildFree.ident (by decide)) (Nat.lt_succ_self _)

/-! ## The query pipeline: matches and filtering (`nls` package)

`MatchN` is `nls.Match` (`{Node, Values}`); `matchFilter` is
`(*G).matchFilter`, which rebuilds `current` keeping the matches accepted
by the predicate. -/

structure MatchN where
  node : Node
  values : Values

def matchFilter (fn : MatchN → Bool) : List MatchN → List MatchN
  | [] => []
  | m :: rest => if fn m then m :: matchFilter fn rest else matchFilter fn rest

/-- `nodeString`: the identifier-like string of a node — a bare `Ident`'s
name, looking through `ExprStmt`; every other node yields `""`. -/
def nodeString : Node → GName
  | .ident name => name
  | .exprStmt x => nodeString x
  | _ => []

/-- The anchoring done at the top of `(*G).Regexp`: prepend `^` when
absent, then append `$` when absent. -/
def anchorExpr (expr : GName) : GName :=
  let expr := if "^".toList.isPrefixOf expr then expr else "^".toList ++ expr
  if "$".toList.isSuffixOf expr then expr else expr ++ "$".toList

/-- `(*G).Regexp`: the compiled host regex is the collaborator `engine`
(pattern, then subject); the filter keeps matches whose `nodeString` is
non-empty and accepted by the regex compiled from the anchored pattern. -/
def GRegexp (engine : GName → GName → Bool) (expr : GName)
    (current : List MatchN) : List MatchN :=
  matchFilter (fun m =>
    let str := nodeString m.node
    decide (str ≠ []) && engine (anchorExpr expr) str) current

theorem matchFilter_mem (fn : MatchN → Bool) (l : List MatchN) (mm : MatchN) :
    mm ∈ matchFilter fn l ↔ mm ∈ l ∧ fn mm = true := by
  induction l with
  | nil => simp [matchFilter]
  | cons a rest ih =>
    cases ha : fn a with
    | true =>
      rw [matchFilter, if_pos ha]
      simp only [List.mem_cons, ih]
      constructor
      · rintro (rfl | ⟨h1, h2⟩)
        · exact ⟨Or.inl rfl, ha⟩
        · exact ⟨Or.inr h1, h2⟩
      · rintro ⟨rfl | h1, h2⟩
        · exact Or.inl rfl
        · exact Or.inr ⟨h1, h2⟩
    | false =>
      rw [matchFilter, if_neg (by simp [ha])]
      simp only [List.mem_cons, ih]
      constructor
      · rintro ⟨h1, h2⟩
        exact ⟨Or.inr h1, h2⟩
      · rintro ⟨rfl | h1, h2⟩
        · exact absurd h2 (by simp [ha])
        · exact ⟨h1, h2⟩

theorem isPrefixOf_append_right {p e : GName} (t : GName) (h : p.isPrefixOf e = true) :
    p.isPrefixOf (e ++ t) = true := by
  induction p generalizing e with
  | nil => simp [List.isPrefixOf]
  | cons a as ih =>
    cases e with
    | nil => simp [List.isPrefixOf] at h
    | cons b bs =>
      simp only [List.isPrefixOf, List.cons_append, Bool.and_eq_true] at h ⊢
      exact ⟨h.1, ih h.2⟩

theorem hat_prefix (e : GName) : "^".toList.isPrefixOf ("^".toList ++ e) = true := by
  simp [List.isPrefixOf]

theorem dollar_suffix (e : GName) : "$".toList.isSuffixOf (e ++ "$".toList) = true := by
  simp [List.isSuffixOf, List.isPrefixOf]

/-- C8: `G.Regexp(expr)` compiles `expr` after prepending `^` when absent
and appending `$` when absent, and keeps exactly those current matches
whose node renders to a non-empty identifier string — the name of a bare
identifier, or of an identifier wrapped in an expression statement — that
the anchored regex matches; every match whose node yields no identifier
string is discarded. -/
theorem C8_regexp_filter (engine : GName → GName → Bool) (expr : GName)
    (cur : List MatchN) :
    (∀ mm, mm ∈ GRegexp engine expr cur ↔
      mm ∈ cur ∧ nodeString mm.node ≠ [] ∧
        engine (anchorExpr expr) (nodeString mm.node) = true) ∧
    "^".toList.isPrefixOf (anchorExpr expr) = true ∧
    "$".toList.isSuffixOf (anchorExpr expr) = true ∧
    nodeString (.ident expr) = expr ∧
    nodeString (.exprStmt (.ident expr)) = expr := by
  refine ⟨?_, ?_, ?_, rfl, rfl⟩
  · intro mm
    rw [GRegexp, matchFilter_mem]
    simp [Bool.and_eq_true, and_assoc]
  · unfold anchorExpr
    by_cases h1 : "^".toList.isPrefixOf expr
    · rw [if_pos h1]
      by_cases h2 : "$".toList.isSuffixOf expr
      · rw [if_pos h2]; exact h1
      · rw [if_neg h2]; exact isPrefixOf_append_right _ h1
    · rw [if_neg h1]
      by_cases h2 : "$".toList.isSuffixOf ("^".toList ++ expr)
      · rw [if_pos h2]; exact hat_prefix expr
      · rw [if_neg h2]
        rw [List.append_assoc]
        exact hat_prefix (expr ++ "$".toList)
  · unfold anchorExpr
    by_cases h1 : "^".toList.isPrefixOf expr
    · rw [if_pos h1]
      by_cases h2 : "$".toList.isSuffixOf expr
      · rw [if_pos h2]; exact h2
      · rw [if_neg h2]; exact dollar_suffix expr
    · rw [if_neg h1]
      by_cases h2 : "$".toList.isSuffixOf ("^".toList ++ expr)
      · rw [if_pos h2]; exact h2
      · rw [if_neg h2]; exact dollar_suffix _

/-! ## Substitution into a parent slot (`(*G).substNode`, `nls` package)

Slice elements stand for Go AST node *identities* (pointer values), so the
element type is an arbitrary `α` with decidable equality; the Go loop
compares with pointer equality (`expr == oldList[0]`).  A Go slice is a
view of a backing array: the `*[]ast.Expr` / `*[]ast.Stmt` arm takes
`first := (*x)[:i]` and `last := (*x)[i+len(oldList):]`, both *aliasing*
the backing array of `*x`, whose capacity `c` satisfies `len(*x) ≤ c`.
`append(first, y...)` reuses that array in place whenever
`i + len(y) ≤ c` — `first` starts at offset 0, so its capacity is `c` —
writing `y` over positions `i .. i+len(y)`; only when the capacity is
exceeded does it allocate a fresh array.  The view `last` is read *after*
this write, so an in-place growing append clobbers the elements `last`
denotes.  The backing array is modelled by the element list `xs`
(positions `≥ xs.length` hold unobservable junk) plus the capacity `c`. -/

section Subst

variable {α : Type} [DecidableEq α]

/-- The scan `for i, expr := range *x { if expr == oldList[0] { first =
(*x)[:i]; last = (*x)[i+len(oldList):]; break } }`: the index at which
the two views are taken, `none` when `oldList[0]` is absent (both views
stay `nil`). -/
def substScanLoop (old0 : α) : Nat → List α → Option Nat
  | _, [] => none
  | i, x :: rest => if x = old0 then some i else substScanLoop old0 (i + 1) rest

def substScan (xs : List α) (old0 : α) : Option Nat := substScanLoop old0 0 xs

/-- `*x = append(first, y...)` followed by `*x = append(*x, last...)`
over the shared backing array.  In the in-place case the mutated array is
`buf1` and `last`'s elements are read back from it at positions
`i+oldLen .. xs.length`; in the reallocating case `last` still reads the
untouched original array. -/
def substAppends (c : Nat) (xs : List α) (i oldLen : Nat) (newList : List α) : List α :=
  if i + newList.length ≤ c then
    let buf1 := xs.take i ++ newList ++ xs.drop (i + newList.length)
    buf1.take (i + newList.length) ++
      (buf1.drop (i + oldLen)).take (xs.length - (i + oldLen))
  else
    xs.take i ++ newList ++ xs.drop (i + oldLen)

/-- The `*[]ast.Expr` / `*[]ast.Stmt` arm of `substNode` for a list-valued
replacement, on a backing array `xs` of capacity `c`. -/
def substSliceList (c : Nat) (xs : List α) (old0 : α) (oldTail newList : List α) :
    List α :=
  match substScan xs old0 with
  | none => newList
  | some i => substAppends c xs i (oldTail.length + 1) newList

/-- The same arm when the new value is a single node `y`:
`*x = append(first, y)`. -/
def substSliceSingle (c : Nat) (xs : List α) (old0 : α) (oldTail : List α) (y : α) :
    List α :=
  substSliceList c xs old0 oldTail [y]

/-- The scalar-interface-field arm: `*x = newNode`. -/
def substScalar (_old newNode : α) : α := newNode

/-- C4: the claim's frame property fails on the program.  `first` and
`last` alias the backing array of `*x`, and when the replacement list is
longer than the old run and the capacity admits an in-place
`append(first, y...)`, the append overwrites the elements `last` denotes
before they are read back, so the trailing elements are corrupted rather
than preserved: replacing the run `[1]` inside `[10, 1, 2, 3]` (capacity
4) by `[7, 8, 9]` yields `[10, 7, 8, 9, 8, 9]` — the trailing `[2, 3]`
have become `[8, 9]` — instead of the claimed `[10, 7, 8, 9, 2, 3]`.
The property does hold when the replacement is no longer than the old
run, or when the capacity check forces a fresh array: the same
replacement into `[10, 1, 2]` preserves `[2]` at capacity 3 (realloc)
but clobbers it to `[8]` at capacity 4 (in place), and a shrinking
replacement preserves the tail.  A scalar field is simply overwritten. -/
theorem C4_subst_slice_clobber :
    substSliceList 4 [10, 1, 2, 3] (1 : Nat) [] [7, 8, 9] = [10, 7, 8, 9, 8, 9] ∧
    substSliceList 4 [10, 1, 2, 3] (1 : Nat) [] [7, 8, 9] ≠ [10] ++ [7, 8, 9] ++ [2, 3] ∧
    substSliceList 3 [10, 1, 2] (1 : Nat) [] [7, 8, 9] = [10] ++ [7, 8, 9] ++ [2] ∧
    substSliceList 4 [10, 1, 2] (1 : Nat) [] [7, 8, 9] = [10, 7, 8, 9, 8] ∧
    substSliceList 4 [10, 1, 2, 3] (1 : Nat) [2] [7] = [10] ++ [7] ++ [3] ∧
    substSliceSingle 4 [10, 1, 2, 3] (1 : Nat) [2] 7 = [10] ++ [7] ++ [3] ∧
    ∀ y : Nat, substScalar (1 : Nat) y = y := by
  refine ⟨by decide, by decide, by decide, by decide, by decide, by decide, fun _ => rfl⟩

end Subst

/-! ## Run, Fatal and error propagation (`nls` package)

`(*G).Fatal` panics with a `runError`; the only `recover` is the deferred
handler at the top of `(*G).Run`.  A Go panic unwinding through the
remaining operators is modelled by `Except`: an operator is a function
`GState → Except GErr GState`, throwing is `.error`, and sequencing an
operator list short-circuits exactly as the panic does. -/

abbrev GErr := String

structure GState where
  current : List MatchN
  values : Values

abbrev GOp := GState → Except GErr GState

/-- `(*G).Fatal(err)`: `panic(runError(err))`. -/
def GFatal (e : GErr) : Except GErr GState := .error e

/-- Sequential execution of a query function's operator calls; a thrown
error unwinds past all remaining operators. -/
def runOps : List GOp → GState → Except GErr GState
  | [], g => .ok g
  | op :: rest, g =>
    match op g with
    | .error e => .error e
    | .ok g' => runOps rest g'

/-- The initial state built by `(*G).Run`: one match per input root,
with an empty capture map. -/
def GInit (nodes : List Node) : GState :=
  { current := nodes.map (fun n => { node := n, values := [] }), values := [] }

/-- `(*G).Run`: runs the query function on the initial state; the deferred
`recover` turns a thrown `runError` into the returned error, with no
result nodes; on success the result nodes are the current matches'
nodes. -/
def GRun (fn : GState → Except GErr GState) (nodes : List Node) :
    Except GErr (List Node) :=
  match fn (GInit nodes) with
  | .error e => .error e
  | .ok g' => .ok (g'.current.map (·.node))

theorem runOps_append (l1 l2 : List GOp) (g : GState) :
    runOps (l1 ++ l2) g =
      match runOps l1 g with
      | .error e => .error e
      | .ok g' => runOps l2 g' := by
  induction l1 generalizing g with
  | nil => simp [runOps]
  | cons op rest ih =>
    rw [List.cons_append, runOps, runOps]
    cases op g with
    | error e => rfl
    | ok g' => exact ih g'

/-- C6: a fatal error raised by any pipeline operator (via `G.Fatal`,
which panics with a `runError`) unwinds through all remaining operators
and is recovered exactly at the top of `G.Run`, which returns it as its
error result with no result nodes; operators never return partial
progress to the caller. -/
theorem C6_fatal_unwinds (ops₁ ops₂ : List GOp) (op : GOp) (nodes : List Node)
    (e : GErr) (g1 : GState)
    (h1 : runOps ops₁ (GInit nodes) = .ok g1)
    (h2 : op g1 = .error e) :
    runOps (ops₁ ++ op :: ops₂) (GInit nodes) = .error e ∧
    GRun (runOps (ops₁ ++ op :: ops₂)) nodes = .error e ∧
    (∀ fn g', fn (GInit nodes) = .ok g' →
      GRun fn nodes = .ok (g'.current.map (·.node))) ∧
    GFatal e = .error e := by
  have hseq : runOps (ops₁ ++ op :: ops₂) (GInit nodes) = .error e := by
    rw [runOps_append, h1]
    show runOps (op :: ops₂) g1 = .error e
    simp only [runOps, h2]
  refine ⟨hseq, ?_, ?_, rfl⟩
  · rw [GRun, hseq]
  · intro fn g' hok
    rw [GRun, hok]

/-- Closed instance of `C6_fatal_unwinds`: an empty prefix, a throwing
operator and one trailing operator that is never reached. -/
theorem C6_fatal_unwinds_witness :
    runOps ([] ++ (fun _ => .error "boom") :: [fun g => .ok g])
      (GInit [.ident "a".toList]) = .error "boom" ∧
    GRun (runOps ([] ++ (fun _ => .error "boom") :: [fun g => .ok g]))
      [.ident "a".toList] = .error "boom" := by
  have h := C6_fatal_unwinds [] [fun g => .ok g] (fun _ => .error "boom")
    [.ident "a".toList] "boom" (GInit [.ident "a".toList]) rfl rfl
  exact ⟨h.1, h.2.1⟩

/-! ## `(*G).All`: sub-matches, de-duplication, capture seeding

The traversal `walkWithLists` and the matcher entry `topNode` live in an
`nls` source file that is not part of the bundle; they enter the model as
the collaborator functions `walk` (the candidate nodes offered to the
`match` closure, `nil` included) and `attempt` (one match attempt from a
given capture map, returning the matched node — or `none` — and the final
capture map).  `posHash` is `nodePosHash{node.Pos(), node.End()}`; since
the embedded nodes carry no positions, the hash is the collaborator
`hashF` into a type with decidable equality. -/

section AllModel

variable {H : Type} [DecidableEq H]

/-- Modelled from the spec: `valsCopy` (defined in an `nls` source file
missing from the bundle) makes a copy of a capture map — "Each new
match's captures begin as a **copy** of the parent match's captures".
In the pure embedding a copy is the map itself; what matters is where
`All` starts each attempt from. -/
def valsCopy (v : Values) : Values := v

/-- The `match` closure inside `(*G).All`: skip `nil` nodes, reset
`g.values` to a copy of `startValues`, attempt the match, and record the
result unless its position hash was already seen. -/
def allVisit (attempt : Values → Node → Node → Option Node × Values)
    (hashF : Node → H) (exprNode : Node) (startValues : Values)
    (cand? : Option Node) (next : List MatchN) (seen : List H) :
    List MatchN × List H :=
  match cand? with
  | none => (next, seen)
  | some cand =>
    match attempt (valsCopy startValues) exprNode cand with
    | (none, _) => (next, seen)
    | (some found, vals) =>
      if hashF found ∈ seen then (next, seen)
      else (next ++ [⟨found, vals⟩], seen ++ [hashF found])

/-- `g.walkWithLists(exprNode, m.Node, match)`: the `match` closure is
invoked on every offered candidate in order. -/
def allWalk (attempt : Values → Node → Node → Option Node × Values)
    (hashF : Node → H) (exprNode : Node) (startValues : Values) :
    List (Option Node) → List MatchN → List H → List MatchN × List H
  | [], next, seen => (next, seen)
  | c :: cs, next, seen =>
    let r := allVisit attempt hashF exprNode startValues c next seen
    allWalk attempt hashF exprNode startValues cs r.1 r.2

/-- The outer loop of `(*G).All` over the current matches:
`startValues = valsCopy(m.Values)` is taken fresh for every parent
match. -/
def allOuter (walk : Node → List (Option Node))
    (attempt : Values → Node → Node → Option Node × Values)
    (hashF : Node → H) (exprNode : Node) :
    List MatchN → List MatchN → List H → List MatchN × List H
  | [], next, seen => (next, seen)
  | m :: ms, next, seen =>
    let startValues := valsCopy m.values
    let r := allWalk attempt hashF exprNode startValues (walk m.node) next seen
    allOuter walk attempt hashF exprNode ms r.1 r.2

/-- `(*G).All`: parse the pattern (fatal on error), then replace `current`
by the collected sub-matches. -/
def GAll (parse : Except GErr Node) (walk : Node → List (Option Node))
    (attempt : Values → Node → Node → Option Node × Values)
    (hashF : Node → H) (g : GState) : Except GErr GState :=
  match parse with
  | .error e => .error e
  | .ok exprNode =>
    .ok { g with current := (allOuter walk attempt hashF exprNode g.current [] []).1 }

/-- The loop invariant of the `seen` map: retained hashes are pairwise
distinct and all recorded in `seen`. -/
def AllInv (hashF : Node → H) (next : List MatchN) (seen : List H) : Prop :=
  (next.map (fun x => hashF x.node)).Nodup ∧ ∀ x ∈ next, hashF x.node ∈ seen

theorem allVisit_inv (attempt : Values → Node → Node → Option Node × Values)
    (hashF : Node → H) (exprNode : Node) (startValues : Values)
    (cand? : Option Node) (next : List MatchN) (seen : List H)
    (h : AllInv hashF next seen) :
    AllInv hashF (allVisit attempt hashF exprNode startValues cand? next seen).1
      (allVisit attempt hashF exprNode startValues cand? next seen).2 := by
  cases cand? with
  | none => exact h
  | some cand =>
    rw [allVisit]
    split
    · exact h
    · rename_i found vals hat
      split
      · exact h
      · rename_i hs
        constructor
        · rw [List.map_append]
          simp only [List.map_cons, List.map_nil]
          rw [List.nodup_append]
          refine ⟨h.1, List.nodup_singleton _, ?_⟩
          intro a ha hb
          simp only [List.mem_singleton] at hb
          subst hb
          rcases List.mem_map.mp ha with ⟨x, hx, hxa⟩
          exact hs (hxa ▸ h.2 x hx)
        · intro x hx
          rcases List.mem_append.mp hx with h1 | h1
          · exact List.mem_append.mpr (Or.inl (h.2 x h1))
          · simp only [List.mem_singleton] at h1
            subst h1
            exact List.mem_append.mpr (Or.inr (by simp))

theorem allWalk_inv (attempt : Values → Node → Node → Option Node × Values)
    (hashF : Node → H) (exprNode : Node) (startValues : Values)
    (cs : List (Option Node)) (next : List MatchN) (seen : List H)
    (h : AllInv hashF next seen) :
    AllInv hashF (allWalk attempt hashF exprNode startValues cs next seen).1
      (allWalk attempt hashF exprNode startValues cs next seen).2 := by
  induction cs generalizing next seen with
  | nil => exact h
  | cons c cs ih =>
    rw [allWalk]
    exact ih _ _ (allVisit_inv attempt hashF exprNode startValues c next seen h)

theorem allOuter_inv (walk : Node → List (Option Node))
    (attempt : Values → Node → Node → Option Node × Values)
    (hashF : Node → H) (exprNode : Node)
    (ms : List MatchN) (next : List MatchN) (seen : List H)
    (h : AllInv hashF next seen) :
    AllInv hashF (allOuter walk attempt hashF exprNode ms next seen).1
      (allOuter walk attempt hashF exprNode ms next seen).2 := by
  induction ms generalizing next seen with
  | nil => exact h
  | cons m ms ih =>
    rw [allOuter]
    exact ih _ _ (allWalk_inv attempt hashF exprNode (valsCopy m.values) (walk m.node)
      next seen h)

theorem allVisit_sub (attempt : Values → Node → Node → Option Node × Values)
    (hashF : Node → H) (exprNode : Node) (startValues : Values)
    (cand? : Option Node) (next : List MatchN) (seen : List H) :
    ∀ x ∈ (allVisit attempt hashF exprNode startValues cand? next seen).1,
      x ∈ next ∨ ∃ cand, cand? = some cand ∧
        attempt (valsCopy startValues) exprNode cand = (some x.node, x.values) := by
  intro x hx
  cases cand? with
  | none => exact Or.inl hx
  | some cand =>
    rw [allVisit] at hx
    split at hx
    · exact Or.inl hx
    · rename_i found vals hat
      split at hx
      · exact Or.inl hx
      · rcases List.mem_append.mp hx with h1 | h1
        · exact Or.inl h1
        · simp only [List.mem_singleton] at h1
          subst h1
          exact Or.inr ⟨cand, rfl, hat⟩

theorem allWalk_sub (attempt : Values → Node → Node → Option Node × Values)
    (hashF : Node → H) (exprNode : Node) (startValues : Values)
    (cs : List (Option Node)) (next : List MatchN) (seen : List H) :
    ∀ x ∈ (allWalk attempt hashF exprNode startValues cs next seen).1,
      x ∈ next ∨ ∃ cand, some cand ∈ cs ∧
        attempt (valsCopy startValues) exprNode cand = (some x.node, x.values) := by
  induction cs generalizing next seen with
  | nil => exact fun x hx => Or.inl hx
  | cons c cs ih =>
    intro x hx
    rw [allWalk] at hx
    rcases ih _ _ x hx with h1 | ⟨cand, hc, hat⟩
    · rcases allVisit_sub attempt hashF exprNode startValues c next seen x h1 with
        h2 | ⟨cand, hc, hat⟩
      · exact Or.inl h2
      · exact Or.inr ⟨cand, by simp [hc], hat⟩
    · exact Or.inr ⟨cand, List.mem_cons_of_mem _ hc, hat⟩

theorem allOuter_sub (walk : Node → List (Option Node))
    (attempt : Values → Node → Node → Option Node × Values)
    (hashF : Node → H) (exprNode : Node)
    (ms : List MatchN) (next : List MatchN) (seen : List H) :
    ∀ x ∈ (allOuter walk attempt hashF exprNode ms next seen).1,
      x ∈ next ∨ ∃ m ∈ ms, ∃ cand, some cand ∈ walk m.node ∧
        attempt (valsCopy m.values) exprNode cand = (some x.node, x.values) := by
  induction ms generalizing next seen with
  | nil => exact fun x hx => Or.inl hx
  | cons m ms ih =>
    intro x hx
    rw [allOuter] at hx
    rcases ih _ _ x hx with h1 | ⟨m', hm', cand, hc, hat⟩
    · rcases allWalk_sub attempt hashF exprNode (valsCopy m.values) (walk m.node)
        next seen x h1 with h2 | ⟨cand, hc, hat⟩
      · exact Or.inl h2
      · exact Or.inr ⟨m, by simp, cand, hc, hat⟩
    · exact Or.inr ⟨m', List.mem_cons_of_mem _ hm', cand, hc, hat⟩

/-- C3: after `G.All(pattern)`, the current match set consists of
sub-matches of the pattern found under the previous current matches, such
that no two retained matches have the same position hash, and each
retained match's capture map comes out of a match attempt seeded with a
fresh copy of its parent match's captures — sibling sub-matches never
share a capture map or leak bindings to each other. -/
theorem C3_all_dedup_and_seeding (walk : Node → List (Option Node))
    (attempt : Values → Node → Node → Option Node × Values)
    (hashF : Node → H) (exprNode : Node) (g : GState) (g' : GState)
    (h : GAll (.ok exprNode) walk attempt hashF g = .ok g') :
    ((g'.current.map (fun x => hashF x.node)).Nodup) ∧
    (∀ x ∈ g'.current, ∃ m ∈ g.current, ∃ cand, some cand ∈ walk m.node ∧
      attempt (valsCopy m.values) exprNode cand = (some x.node, x.values)) := by
  have hg' : g' = { g with current := (allOuter walk attempt hashF exprNode g.current [] []).1 } := by
    simpa [GAll] using h.symm
  subst hg'
  constructor
  · exact (allOuter_inv walk attempt hashF exprNode g.current [] []
      ⟨List.nodup_nil, by simp⟩).1
  · intro x hx
    rcases allOuter_sub walk attempt hashF exprNode g.current [] [] x hx with h1 | h1
    · simp at h1
    · exact h1

/-- Closed instance of `C3_all_dedup_and_seeding`: one parent match whose
subtree offers the identifier `a` twice; the duplicate position hash is
retained only once, and the retained capture map is the attempt's output
seeded from the parent's (empty) captures. -/
theorem C3_all_dedup_and_seeding_witness :
    (((GState.mk [⟨Node.ident "a".toList, [("x".toList, Node.ident "a".toList)]⟩]
        []).current.map (fun x => (fun _ : Node => (0 : Nat)) x.node)).Nodup) ∧
    (∀ x ∈ (GState.mk [⟨Node.ident "a".toList, [("x".toList, Node.ident "a".toList)]⟩]
        []).current,
      ∃ m ∈ (GInit [.ident "a".toList]).current,
        ∃ cand, some cand ∈ (fun _ : Node => [some (Node.ident "a".toList),
            some (Node.ident "a".toList)]) m.node ∧
          (fun v _ c => (some c, ("x".toList, c) :: v)) (valsCopy m.values)
            (Node.ident (wildName "x".toList)) cand = (some x.node, x.values)) :=
  C3_all_dedup_and_seeding
    (fun _ : Node => [some (Node.ident "a".toList), some (Node.ident "a".toList)])
    (fun v _ c => (some c, ("x".toList, c) :: v))
    (fun _ : Node => (0 : Nat))
    (Node.ident (wildName "x".toList))
    (GInit [.ident "a".toList])
    (GState.mk [⟨Node.ident "a".toList, [("x".toList, Node.ident "a".toList)]⟩] [])
    rfl

end AllModel

/-! ## `(*G).Suggest`: the per-root pass after replacement

After `g.Replace(pattern)`, `Suggest` walks the current matches, takes
each match's ultimate root (`g.nodeRoot`), and processes every distinct
root — identified by its position hash — exactly once: roots that are
files with a known path are collected in `filePaths` (the write loop then
writes each collected file once); all other roots are passed through as
matches with the root as node and no captures.  `nodeRoot` and the
position hash come from collaborator functions, as in the `All` model;
`filePathOf` models `root.(*ast.File)` plus the
`g.Fset.Position(file.Package).Filename` lookup, returning the path only
for a file root with a non-empty name. -/

section SuggestModel

variable {H : Type} [DecidableEq H]

abbrev FPath := String

/-- The collection loop of `(*G).Suggest` (after the `g.Replace` call). -/
def suggestLoop (rootF : Node → Node) (hashF : Node → H)
    (filePathOf : Node → Option FPath) :
    List MatchN → List H → List (Node × FPath) → List MatchN →
      List (Node × FPath) × List MatchN
  | [], _, filePaths, next => (filePaths, next)
  | sub :: rest, seen, filePaths, next =>
    let root := rootF sub.node
    let hash := hashF root
    if hash ∈ seen then
      -- avoid dups
      suggestLoop rootF hashF filePathOf rest seen filePaths next
    else
      match filePathOf root with
      | some path =>
        -- write to disk
        suggestLoop rootF hashF filePathOf rest (seen ++ [hash])
          (filePaths ++ [(root, path)]) next
      | none =>
        -- pass it on, to print to stdout
        suggestLoop rootF hashF filePathOf rest (seen ++ [hash]) filePaths
          (next ++ [⟨root, []⟩])

def GSuggestCollect (rootF : Node → Node) (hashF : Node → H)
    (filePathOf : Node → Option FPath) (current : List MatchN) :
    List (Node × FPath) × List MatchN :=
  suggestLoop rootF hashF filePathOf current [] [] []

/-- Invariant: every processed root hash is recorded in `seen`, and the
hashes of all processed roots — written files and passthrough matches
together — are pairwise distinct. -/
def SugInv (hashF : Node → H) (seen : List H) (filePaths : List (Node × FPath))
    (next : List MatchN) : Prop :=
  ((filePaths.map (fun p => hashF p.1)) ++ (next.map (fun x => hashF x.node))).Nodup ∧
  (∀ p ∈ filePaths, hashF p.1 ∈ seen) ∧ (∀ x ∈ next, hashF x.node ∈ seen)

theorem suggestLoop_inv (rootF : Node → Node) (hashF : Node → H)
    (filePathOf : Node → Option FPath) (cur : List MatchN) :
    ∀ (seen : List H) (filePaths : List (Node × FPath)) (next : List MatchN),
      SugInv hashF seen filePaths next →
      ∃ seen', SugInv hashF seen'
        (suggestLoop rootF hashF filePathOf cur seen filePaths next).1
        (suggestLoop rootF hashF filePathOf cur seen filePaths next).2 := by
  induction cur with
  | nil => exact fun seen filePaths next h => ⟨seen, h⟩
  | cons sub rest ih =>
    intro seen filePaths next h
    rw [suggestLoop]
    by_cases hs : hashF (rootF sub.node) ∈ seen
    · simp only [hs, if_true]
      exact ih seen filePaths next h
    · simp only [hs, if_false]
      cases hfp : filePathOf (rootF sub.node) with
      | some path =>
        refine ih (seen ++ [hashF (rootF sub.node)])
          (filePaths ++ [(rootF sub.node, path)]) next ⟨?_, ?_, ?_⟩
        · rw [List.map_append, List.append_assoc]
          simp only [List.map_cons, List.map_nil, List.singleton_append]
          rw [List.nodup_middle, List.nodup_cons]
          refine ⟨?_, h.1⟩
          intro hcontra
          rcases List.mem_append.mp hcontra with h1 | h1
          · rcases List.mem_map.mp h1 with ⟨p, hp, hpe⟩
            exact hs (hpe ▸ h.2.1 p hp)
          · rcases List.mem_map.mp h1 with ⟨x, hx, hxe⟩
            exact hs (hxe ▸ h.2.2 x hx)
        · intro p hp
          rcases List.mem_append.mp hp with h1 | h1
          · exact List.mem_append.mpr (Or.inl (h.2.1 p h1))
          · simp only [List.mem_singleton] at h1
            subst h1
            exact List.mem_append.mpr (Or.inr (by simp))
        · exact fun x hx => List.mem_append.mpr (Or.inl (h.2.2 x hx))
      | none =>
        refine ih (seen ++ [hashF (rootF sub.node)]) filePaths
          (next ++ [⟨rootF sub.node, []⟩]) ⟨?_, ?_, ?_⟩
        · rw [List.map_append]
          simp only [List.map_cons, List.map_nil]
          rw [← List.append_assoc, List.nodup_append]
          refine ⟨h.1, List.nodup_singleton _, ?_⟩
          intro a ha hb
          simp only [List.mem_singleton] at hb
          subst hb
          rcases List.mem_append.mp ha with h1 | h1
          · rcases List.mem_map.mp h1 with ⟨p, hp, hpe⟩
            exact hs (hpe ▸ h.2.1 p hp)
          · rcases List.mem_map.mp h1 with ⟨x, hx, hxe⟩
            exact hs (hxe ▸ h.2.2 x hx)
        · exact fun p hp => List.mem_append.mpr (Or.inl (h.2.1 p hp))
        · intro x hx
          rcases List.mem_append.mp hx with h1 | h1
          · exact List.mem_append.mpr (Or.inl (h.2.2 x h1))
          · simp only [List.mem_singleton] at h1
            subst h1
            exact List.mem_append.mpr (Or.inr (by simp))

theorem suggestLoop_sub (rootF : Node → Node) (hashF : Node → H)
    (filePathOf : Node → Option FPath) (cur : List MatchN) :
    ∀ (seen : List H) (filePaths : List (Node × FPath)) (next : List MatchN),
      (∀ p ∈ (suggestLoop rootF hashF filePathOf cur seen filePaths next).1,
        p ∈ filePaths ∨ ∃ sub ∈ cur, p.1 = rootF sub.node ∧
          filePathOf (rootF sub.node) = some p.2) ∧
      (∀ x ∈ (suggestLoop rootF hashF filePathOf cur seen filePaths next).2,
        x ∈ next ∨ ∃ sub ∈ cur, x = ⟨rootF sub.node, []⟩ ∧
          filePathOf (rootF sub.node) = none) := by
  induction cur with
  | nil => exact fun seen filePaths next => ⟨fun p hp => Or.inl hp, fun x hx => Or.inl hx⟩
  | cons sub rest ih =>
    intro seen filePaths next
    rw [suggestLoop]
    by_cases hs : hashF (rootF sub.node) ∈ seen
    · simp only [hs, if_true]
      constructor
      · intro p hp
        rcases (ih seen filePaths next).1 p hp with h1 | ⟨s, hsin, he⟩
        · exact Or.inl h1
        · exact Or.inr ⟨s, List.mem_cons_of_mem _ hsin, he⟩
      · intro x hx
        rcases (ih seen filePaths next).2 x hx with h1 | ⟨s, hsin, he⟩
        · exact Or.inl h1
        · exact Or.inr ⟨s, List.mem_cons_of_mem _ hsin, he⟩
    · simp only [hs, if_false]
      cases hfp : filePathOf (rootF sub.node) with
      | some path =>
        constructor
        · intro p hp
          rcases (ih _ _ _).1 p hp with h1 | ⟨s, hsin, he⟩
          · rcases List.mem_append.mp h1 with h2 | h2
            · exact Or.inl h2
            · simp only [List.mem_singleton] at h2
              subst h2
              exact Or.inr ⟨sub, by simp, rfl, hfp⟩
          · exact Or.inr ⟨s, List.mem_cons_of_mem _ hsin, he⟩
        · intro x hx
          rcases (ih _ _ _).2 x hx with h1 | ⟨s, hsin, he⟩
          · exact Or.inl h1
          · exact Or.inr ⟨s, List.mem_cons_of_mem _ hsin, he⟩
      | none =>
        constructor
        · intro p hp
          rcases (ih _ _ _).1 p hp with h1 | ⟨s, hsin, he⟩
          · exact Or.inl h1
          · exact Or.inr ⟨s, List.mem_cons_of_mem _ hsin, he⟩
        · intro x hx
          rcases (ih _ _ _).2 x hx with h1 | ⟨s, hsin, he⟩
          · rcases List.mem_append.mp h1 with h2 | h2
            · exact Or.inl h2
            · simp only [List.mem_singleton] at h2
              subst h2
              exact Or.inr ⟨sub, by simp, rfl, hfp⟩
          · exact Or.inr ⟨s, List.mem_cons_of_mem _ hsin, he⟩

theorem suggestLoop_mono (rootF : Node → Node) (hashF : Node → H)
    (filePathOf : Node → Option FPath) (cur : List MatchN) :
    ∀ (seen : List H) (filePaths : List (Node × FPath)) (next : List MatchN),
      (∀ p ∈ filePaths,
        p ∈ (suggestLoop rootF hashF filePathOf cur seen filePaths next).1) ∧
      (∀ x ∈ next,
        x ∈ (suggestLoop rootF hashF filePathOf cur seen filePaths next).2) := by
  induction cur with
  | nil => exact fun seen filePaths next => ⟨fun p hp => hp, fun x hx => hx⟩
  | cons sub rest ih =>
    intro seen filePaths next
    rw [suggestLoop]
    by_cases hs : hashF (rootF sub.node) ∈ seen
    · simp only [hs, if_true]
      exact ih seen filePaths next
    · simp only [hs, if_false]
      cases hfp : filePathOf (rootF sub.node) with
      | some path =>
        refine ⟨fun p hp => ?_, fun x hx => (ih _ _ _).2 x hx⟩
        exact (ih _ _ _).1 p (List.mem_append.mpr (Or.inl hp))
      | none =>
        refine ⟨fun p hp => (ih _ _ _).1 p hp, fun x hx => ?_⟩
        exact (ih _ _ _).2 x (List.mem_append.mpr (Or.inl hx))

/-- Completeness of the collection loop: the root hash of every match of
the input list ends up either already seen or among the hashes of the
produced output (written files together with passthrough matches). -/
theorem suggestLoop_complete (rootF : Node → Node) (hashF : Node → H)
    (filePathOf : Node → Option FPath) (cur : List MatchN) :
    ∀ (seen : List H) (filePaths : List (Node × FPath)) (next : List MatchN),
      ∀ sub ∈ cur, hashF (rootF sub.node) ∈ seen ∨
        hashF (rootF sub.node) ∈
          ((suggestLoop rootF hashF filePathOf cur seen filePaths next).1.map
              (fun p => hashF p.1) ++
            (suggestLoop rootF hashF filePathOf cur seen filePaths next).2.map
              (fun x => hashF x.node)) := by
  induction cur with
  | nil => intro seen filePaths next sub hsub; cases hsub
  | cons sub rest ih =>
    intro seen filePaths next s hs
    rw [suggestLoop]
    by_cases hseen : hashF (rootF sub.node) ∈ seen
    · simp only [hseen, if_true]
      rcases List.mem_cons.mp hs with rfl | hrest
      · exact Or.inl hseen
      · exact ih seen filePaths next s hrest
    · simp only [hseen, if_false]
      cases hfp : filePathOf (rootF sub.node) with
      | some path =>
        have hmem : (rootF sub.node, path) ∈
            (suggestLoop rootF hashF filePathOf rest (seen ++ [hashF (rootF sub.node)])
              (filePaths ++ [(rootF sub.node, path)]) next).1 :=
          (suggestLoop_mono rootF hashF filePathOf rest _ _ _).1 _
            (List.mem_append.mpr (Or.inr (by simp)))
        rcases List.mem_cons.mp hs with rfl | hrest
        · exact Or.inr (List.mem_append.mpr (Or.inl
            (List.mem_map.mpr ⟨(rootF s.node, path), hmem, rfl⟩)))
        · rcases ih (seen ++ [hashF (rootF sub.node)])
            (filePaths ++ [(rootF sub.node, path)]) next s hrest with h1 | h1
          · rcases List.mem_append.mp h1 with h2 | h2
            · exact Or.inl h2
            · simp only [List.mem_singleton] at h2
              rw [h2]
              exact Or.inr (List.mem_append.mpr (Or.inl
                (List.mem_map.mpr ⟨(rootF sub.node, path), hmem, rfl⟩)))
          · exact Or.inr h1
      | none =>
        have hmem : (⟨rootF sub.node, []⟩ : MatchN) ∈
            (suggestLoop rootF hashF filePathOf rest (seen ++ [hashF (rootF sub.node)])
              filePaths (next ++ [⟨rootF sub.node, []⟩])).2 :=
          (suggestLoop_mono rootF hashF filePathOf rest _ _ _).2 _
            (List.mem_append.mpr (Or.inr (by simp)))
        rcases List.mem_cons.mp hs with rfl | hrest
        · exact Or.inr (List.mem_append.mpr (Or.inr
            (List.mem_map.mpr ⟨⟨rootF s.node, []⟩, hmem, rfl⟩)))
        · rcases ih (seen ++ [hashF (rootF sub.node)]) filePaths
            (next ++ [⟨rootF sub.node, []⟩]) s hrest with h1 | h1
          · rcases List.mem_append.mp h1 with h2 | h2
            · exact Or.inl h2
            · simp only [List.mem_singleton] at h2
              rw [h2]
              exact Or.inr (List.mem_append.mpr (Or.inr
                (List.mem_map.mpr ⟨⟨rootF sub.node, []⟩, hmem, rfl⟩)))
          · exact Or.inr h1

/-- C10: during `G.Suggest`, after replacement each distinct root node
(identified by its position hash) is processed exactly once even when
several current matches share that root: the hashes of the processed
roots — collected disk writes together with passthrough matches — are
pairwise distinct (at most once), every current match's root hash occurs
among them (at least once), each collected write is a root whose file
path is known, and every other root is passed through as a result match
whose node is the root itself and whose capture map is empty. -/
theorem C10_suggest_roots_once (rootF : Node → Node) (hashF : Node → H)
    (filePathOf : Node → Option FPath) (current : List MatchN) :
    (((GSuggestCollect rootF hashF filePathOf current).1.map (fun p => hashF p.1) ++
      (GSuggestCollect rootF hashF filePathOf current).2.map
        (fun x => hashF x.node)).Nodup) ∧
    (∀ p ∈ (GSuggestCollect rootF hashF filePathOf current).1,
      ∃ sub ∈ current, p.1 = rootF sub.node ∧ filePathOf (rootF sub.node) = some p.2) ∧
    (∀ x ∈ (GSuggestCollect rootF hashF filePathOf current).2,
      ∃ sub ∈ current, x = ⟨rootF sub.node, []⟩ ∧ filePathOf (rootF sub.node) = none) ∧
    (∀ sub ∈ current, hashF (rootF sub.node) ∈
      ((GSuggestCollect rootF hashF filePathOf current).1.map (fun p => hashF p.1) ++
        (GSuggestCollect rootF hashF filePathOf current).2.map
          (fun x => hashF x.node))) := by
  refine ⟨?_, ?_, ?_, ?_⟩
  · rcases suggestLoop_inv rootF hashF filePathOf current [] [] []
      ⟨by simp, by simp, by simp⟩ with ⟨seen', hinv⟩
    exact hinv.1
  · intro p hp
    rcases (suggestLoop_sub rootF hashF filePathOf current [] [] []).1 p hp with h1 | h1
    · simp at h1
    · exact h1
  · intro x hx
    rcases (suggestLoop_sub rootF hashF filePathOf current [] [] []).2 x hx with h1 | h1
    · simp at h1
    · exact h1
  · intro sub hsub
    rcases suggestLoop_complete rootF hashF filePathOf current [] [] [] sub hsub
      with h1 | h1
    · cases h1
    · exact h1

end SuggestModel

/-! ## Command-line exit codes

`main` (part_006) exits with `main1()`, which returns 1 when `mainerr()`
failed and 0 otherwise; the generated driver exits with `mainpkg.Run`
(part_011), which returns 1 on a pipeline/load error and 0 on success.
The usage-error path is realized in the earlier in-tree CLI `main`
(part_005): fewer than one argument prints usage and calls `os.Exit(2)`;
in the current entry points the same behaviour comes from the `flag`
package's `ExitOnError` collaborator, modelled from the spec in
`gogrepExit`. -/

/-- `main1` (part_006): `if err := mainerr(); err != nil { ...; return 1 }; return 0`. -/
def main1 (mainerrResult : Option GErr) : Nat :=
  match mainerrResult with
  | some _ => 1
  | none => 0

/-- `mainpkg.Run` (part_011): 1 when the pipeline/load `run` call or
`os.Getwd` fails, 0 after printing the results. -/
def mainpkgRun (runResult : Except GErr (List Node)) (getwdOk : Bool) : Nat :=
  match runResult with
  | .error _ => 1
  | .ok _ => if getwdOk then 0 else 1

/-- The earlier CLI `main` (part_005): usage error (no arguments) exits 2,
a pipeline/load error from `fromArgs` exits 1, success returns normally
(exit 0). -/
def mainExit5 (argsLen : Nat) (fromArgsErr : Option GErr) : Nat :=
  if argsLen < 1 then 2
  else match fromArgsErr with
  | some _ => 1
  | none => 0

/-- Modelled from the spec: the overall process exit code — the `flag`
collaborator (ExitOnError) exits 2 on a usage error before the program's
own code runs; otherwise the entry point returns 1 on a pipeline/load
error and 0 on success. -/
def gogrepExit (usageErr : Bool) (err : Option GErr) : Nat :=
  if usageErr then 2 else main1 err

/-- C9: the command-line program exits with code 0 on success, code 1 on
a pipeline or load error, and code 2 on a usage error. -/
theorem C9_exit_codes :
    (∀ err, gogrepExit true err = 2) ∧
    (∀ e, gogrepExit false (some e) = 1) ∧
    gogrepExit false none = 0 ∧
    (∀ e, main1 (some e) = 1) ∧
    main1 none = 0 ∧
    (∀ e ok, mainpkgRun (.error e) ok = 1) ∧
    (∀ ns, mainpkgRun (.ok ns) true = 0) ∧
    (∀ e, mainExit5 0 e = 2) ∧
    (∀ n e, 1 ≤ n → mainExit5 n (some e) = 1) ∧
    (∀ n, 1 ≤ n → mainExit5 n none = 0) := by
  refine ⟨fun _ => rfl, fun _ => rfl, rfl, fun _ => rfl, rfl, fun _ _ => rfl, fun _ => rfl,
    fun _ => rfl, ?_, ?_⟩
  · intro n e hn
    rw [mainExit5, if_neg (by omega)]
  · intro n hn
    rw [mainExit5, if_neg (by omega)]

/-- Closed instance of `C9_exit_codes` at one argument. -/
theorem C9_exit_codes_witness :
    mainExit5 1 (some "load error") = 1 ∧ mainExit5 1 none = 0 := by
  have h := C9_exit_codes
  exact ⟨h.2.2.2.2.2.2.2.2.1 1 "load error" (by omega), h.2.2.2.2.2.2.2.2.2 1 (by omega)⟩

/-! ## The host parser wrapper: `ParseAny` and `SubPosOffsets` (`gsyntax`)

The host parser is the collaborator `parse`, mapping a source string to
either the declaration list of the parsed file or a parse error
(`scanner.ErrorList` is `GoErr.errs`, any other error value `GoErr.msg`).
`PNode` keeps exactly the structure `ParseAny` destructures; a Go type
assertion that would panic is the result `ParseRes.crash`.  A returned
`(node, err)` pair is `ParseRes.ret node err` (both can be `nil`).
The scanner probe `if _, tok, _ := scan.Scan(); tok == token.EOF` is the
collaborator `srcEmpty`. -/

structure ScanErr where
  line : Int
  col : Int
  msg : String

structure GPosOffset where
  atLine : Int
  atCol : Int
  offset : Int

inductive GoErr where
  | errs (list : List ScanErr)
  | msg (s : String)

/-- The inner offset loop of `SubPosOffsets` for one error: offsets are
applied in order to the running column. -/
def subPosOffsets1 (offs : List GPosOffset) (e : ScanErr) : ScanErr :=
  offs.foldl (fun err off =>
    if err.line ≠ off.atLine then err
    else if err.col < off.atCol then err
    else { err with col := err.col - off.offset }) e

/-- `SubPosOffsets`: only a `scanner.ErrorList` is rewritten; any other
error value is returned unchanged. -/
def SubPosOffsets (e : GoErr) (offs : List GPosOffset) : GoErr :=
  match e with
  | .errs list => .errs (list.map (subPosOffsets1 offs))
  | .msg s => .msg s

inductive PNode where
  | file (decls : List PNode)
  | funcDecl (body : PNode)
  | blockStmt (list : List PNode)
  | ifStmt (body : PNode)
  | genDecl (specs : List PNode)
  | valueSpec (typ : Option PNode) (values : List PNode)
  | compositeLit (elts : List PNode)
  | exprList (elts : List PNode)
  | stmtList (list : List PNode)
  | bad
  | other (tag : Nat)

/-- `noBadNodes`, via the fuel-indexed traversal `hasBadF`: in every use
below the fuel dominates the depth of the tree handed over by the parser
collaborator, so exhaustion never fires. -/
def hasBadF : Nat → PNode → Bool
  | 0, _ => false
  | f + 1, n =>
    match n with
    | .bad => true
    | .file ds => ds.any (hasBadF f)
    | .funcDecl b => hasBadF f b
    | .blockStmt l => l.any (hasBadF f)
    | .ifStmt b => hasBadF f b
    | .genDecl specs => specs.any (hasBadF f)
    | .valueSpec t vs =>
      (match t with | some x => hasBadF f x | none => false) || vs.any (hasBadF f)
    | .compositeLit es => es.any (hasBadF f)
    | .exprList es => es.any (hasBadF f)
    | .stmtList l => l.any (hasBadF f)
    | .other _ => false

def noBadNodes (fuel : Nat) (n : PNode) : Bool := ! hasBadF fuel n

/-- The six parse templates (`execTmpl` on the `tmpl*` templates). -/
def tmplDecl (src : String) : String := "package p; " ++ src

def tmplBlock (src : String) : String :=
  "package p; func _() \x7b if true " ++ src ++ " else \x7b\x7d \x7d"

def tmplExprs (src : String) : String :=
  "package p; var _ = []interface\x7b\x7d\x7b " ++ src ++ ", \x7d"

def tmplStmts (src : String) : String := "package p; func _() \x7b " ++ src ++ " \x7d"

def tmplType (src : String) : String := "package p; var _ " ++ src

def tmplValSpec (src : String) : String := "package p; var " ++ src

/-- A parse attempt that succeeded with no bad nodes (`err == nil &&
noBadNodes(f)`); the file node is its declaration list. -/
def cleanParse (fuel : Nat) (parse : String → Except GoErr (List PNode)) (s : String) :
    Option (List PNode) :=
  match parse s with
  | .ok decls => if noBadNodes fuel (.file decls) then some decls else none
  | .error _ => none

inductive ParseRes where
  | ret (node : Option PNode) (err : Option GoErr)
  | crash

/-- The block template step: `bl := f.Decls[0].(*ast.FuncDecl).Body`;
only when `len(bl.List) == 1` does the branch return (the if statement's
body); otherwise control falls through to the next template. -/
def blockStep (o : Option (List PNode)) : Option ParseRes :=
  match o with
  | none => none
  | some decls =>
    match decls with
    | .funcDecl (.blockStmt [st]) :: _ =>
      match st with
      | .ifStmt body => some (.ret (some body) none)
      | _ => some .crash
    | .funcDecl (.blockStmt _) :: _ => none
    | _ => some .crash

/-- The value-expressions template:
`f.Decls[0].(*ast.GenDecl).Specs[0].(*ast.ValueSpec).Values[0].(*ast.CompositeLit)`;
one element is returned bare, several as an `ExprList`. -/
def exprsExtract (decls : List PNode) : ParseRes :=
  match decls with
  | .genDecl ((.valueSpec _ ((.compositeLit [e]) :: _)) :: _) :: _ => .ret (some e) none
  | .genDecl ((.valueSpec _ ((.compositeLit es) :: _)) :: _) :: _ =>
    .ret (some (.exprList es)) none
  | _ => .crash

/-- The statements template: one statement is returned bare, several as a
`StmtList`. -/
def stmtsExtract (decls : List PNode) : ParseRes :=
  match decls with
  | .funcDecl (.blockStmt [st]) :: _ => .ret (some st) none
  | .funcDecl (.blockStmt l) :: _ => .ret (some (.stmtList l)) none
  | _ => .crash

/-- `ParseType` inside `ParseAny`: returns `vs.Type` as it is (also when
that type is `nil`). -/
def typeExtract (decls : List PNode) : ParseRes :=
  match decls with
  | .genDecl ((.valueSpec typ _vals) :: _) :: _ => .ret typ none
  | _ => .crash

/-- The value-spec template: returns the `ValueSpec` node itself. -/
def valSpecExtract (decls : List PNode) : ParseRes :=
  match decls with
  | .genDecl ((.valueSpec t vs) :: _) :: _ => .ret (some (.valueSpec t vs)) none
  | _ => .crash

/-- The tail of `ParseAny` after the statements attempt, carrying the
recorded `mainErr`. -/
def parseAnyTail (fuel : Nat) (parse : String → Except GoErr (List PNode)) (src : String)
    (mainErr : Option GoErr) : ParseRes :=
  match cleanParse fuel parse (tmplType src) with
  | some decls => typeExtract decls
  | none =>
    match cleanParse fuel parse (tmplValSpec src) with
    | some decls => valSpecExtract decls
    | none => .ret none mainErr

/-- `ParseAny` (gsyntax): empty-source check, then the template cascade in
source order; the statements attempt records the offset-corrected
`mainErr` that a complete failure returns. -/
def ParseAny (fuel : Nat) (srcEmpty : String → Bool)
    (parse : String → Except GoErr (List PNode)) (src : String) : ParseRes :=
  if srcEmpty src then .ret none (some (.msg "empty source code"))
  else
    match cleanParse fuel parse src with
    | some decls => .ret (some (.file decls)) none
    | none =>
      match cleanParse fuel parse (tmplDecl src) with
      | some [d] => .ret (some d) none
      | some decls => .ret (some (.file decls)) none
      | none =>
        match blockStep (cleanParse fuel parse (tmplBlock src)) with
        | some r => r
        | none =>
          match cleanParse fuel parse (tmplExprs src) with
          | some decls => exprsExtract decls
          | none =>
            match parse (tmplStmts src) with
            | .ok decls =>
              if noBadNodes fuel (.file decls) then stmtsExtract decls
              else parseAnyTail fuel parse src none
            | .error e =>
              parseAnyTail fuel parse src (some (SubPosOffsets e [⟨1, 1, 22⟩]))

/-- The claim's reading of the block template ("returning the if-body"),
with no condition on the number of statements in the wrapped function
body. -/
def claimedBlockExtract (decls : List PNode) : ParseRes :=
  match decls with
  | .funcDecl (.blockStmt (st :: _)) :: _ =>
    match st with
    | .ifStmt body => .ret (some body) none
    | _ => .crash
  | _ => .crash

/-- `ParseAny` as claim C2 states it: for every pattern string, the
templates are tried in the fixed order and the node produced by the first
template whose parse succeeds and contains no bad nodes is returned
(no empty-source rejection, and no single-statement side condition on the
block template). -/
def ParseAnyClaimed (fuel : Nat) (parse : String → Except GoErr (List PNode))
    (src : String) : ParseRes :=
  match cleanParse fuel parse src with
  | some decls => .ret (some (.file decls)) none
  | none =>
    match cleanParse fuel parse (tmplDecl src) with
    | some [d] => .ret (some d) none
    | some decls => .ret (some (.file decls)) none
    | none =>
      match cleanParse fuel parse (tmplBlock src) with
      | some decls => claimedBlockExtract decls
      | none =>
        match cleanParse fuel parse (tmplExprs src) with
        | some decls => exprsExtract decls
        | none =>
          match cleanParse fuel parse (tmplStmts src) with
          | some decls => stmtsExtract decls
          | none =>
            match cleanParse fuel parse (tmplType src) with
            | some decls => typeExtract decls
            | none =>
              match cleanParse fuel parse (tmplValSpec src) with
              | some decls => valSpecExtract decls
              | none =>
                match parse (tmplStmts src) with
                | .error e => .ret none (some (SubPosOffsets e [⟨1, 1, 22⟩]))
                | .ok _ => .ret none none

/-- The pattern `{} else {}; if true {}`: its block template parses
cleanly into a function body with two if statements, every other template
fails. -/
def srcBlockTwo : String := "\x7b\x7d else \x7b\x7d; if true \x7b\x7d"

def parseBlockTwo : String → Except GoErr (List PNode) := fun s =>
  if s = tmplBlock srcBlockTwo then
    .ok [.funcDecl (.blockStmt [.ifStmt (.blockStmt []), .ifStmt (.blockStmt [])])]
  else
    .error (.errs [⟨1, 26, "expected statement, found 'else'"⟩])

/-- Counterexample to C2 as stated: on `{} else {}; if true {}` the block
template is the first whose parse succeeds with no bad nodes, yet
`ParseAny` does not return its node — the wrapped function body has two
statements, so the branch falls through and the cascade ends in the
corrected statement-template error. -/
theorem C2_parse_any_counterexample :
    ParseAny 10 (fun _ => false) parseBlockTwo srcBlockTwo =
      .ret none (some (.errs [⟨1, 4, "expected statement, found 'else'"⟩])) ∧
    ParseAnyClaimed 10 parseBlockTwo srcBlockTwo =
      .ret (some (.blockStmt [])) none ∧
    ParseAny 10 (fun _ => true) parseBlockTwo "" =
      .ret none (some (.msg "empty source code")) := ⟨rfl, rfl, rfl⟩

/-- C2 (amended): for a pattern whose scanner probe finds at least one
token, the parse templates are tried in the fixed order — whole file;
declaration (unwrapped when it yields exactly one declaration); block
(returning the if-body, but only when the wrapped function body has
exactly one statement; otherwise the template is skipped even when its
parse is clean); expression list (single element bare, several as
`ExprList`); statement list (single bare, several as `StmtList`); type;
value spec — and the first applicable template's node is returned; an
empty pattern is rejected before any template runs. -/
theorem C2_parse_any_template_order (fuel : Nat) (srcEmpty : String → Bool)
    (parse : String → Except GoErr (List PNode)) (src : String) :
    (srcEmpty src = true →
      ParseAny fuel srcEmpty parse src = .ret none (some (.msg "empty source code"))) ∧
    (srcEmpty src = false →
      ((∀ decls, cleanParse fuel parse src = some decls →
        ParseAny fuel srcEmpty parse src = .ret (some (.file decls)) none) ∧
      (cleanParse fuel parse src = none →
        ((∀ d, cleanParse fuel parse (tmplDecl src) = some [d] →
          ParseAny fuel srcEmpty parse src = .ret (some d) none) ∧
        (∀ d1 d2 ds, cleanParse fuel parse (tmplDecl src) = some (d1 :: d2 :: ds) →
          ParseAny fuel srcEmpty parse src = .ret (some (.file (d1 :: d2 :: ds))) none) ∧
        (cleanParse fuel parse (tmplDecl src) = none →
          ((∀ body rest,
            cleanParse fuel parse (tmplBlock src) =
              some (.funcDecl (.blockStmt [.ifStmt body]) :: rest) →
            ParseAny fuel srcEmpty parse src = .ret (some body) none) ∧
          (∀ bl rest decls,
            cleanParse fuel parse (tmplBlock src) =
              some (.funcDecl (.blockStmt bl) :: rest) →
            bl.length ≠ 1 →
            cleanParse fuel parse (tmplExprs src) = some decls →
            ParseAny fuel srcEmpty parse src = exprsExtract decls) ∧
          (blockStep (cleanParse fuel parse (tmplBlock src)) = none →
            ((∀ decls, cleanParse fuel parse (tmplExprs src) = some decls →
              ParseAny fuel srcEmpty parse src = exprsExtract decls) ∧
            (cleanParse fuel parse (tmplExprs src) = none →
              ((∀ decls, parse (tmplStmts src) = .ok decls →
                noBadNodes fuel (.file decls) = true →
                ParseAny fuel srcEmpty parse src = stmtsExtract decls) ∧
              (∀ e, parse (tmplStmts src) = .error e →
                ParseAny fuel srcEmpty parse src =
                  parseAnyTail fuel parse src
                    (some (SubPosOffsets e [⟨1, 1, 22⟩]))))))))))))) ∧
    ((∀ me decls, cleanParse fuel parse (tmplType src) = some decls →
      parseAnyTail fuel parse src me = typeExtract decls) ∧
    (∀ me, cleanParse fuel parse (tmplType src) = none →
      ((∀ decls, cleanParse fuel parse (tmplValSpec src) = some decls →
        parseAnyTail fuel parse src me = valSpecExtract decls) ∧
      (cleanParse fuel parse (tmplValSpec src) = none →
        parseAnyTail fuel parse src me = .ret none me)))) := by
  refine ⟨?_, ?_, ?_, ?_⟩
  · intro he
    simp [ParseAny, he]
  · intro hne
    refine ⟨?_, ?_⟩
    · intro decls h0
      simp [ParseAny, hne, h0]
    · intro h0
      refine ⟨?_, ?_, ?_⟩
      · intro d h1
        simp [ParseAny, hne, h0, h1]
      · intro d1 d2 ds h1
        simp [ParseAny, hne, h0, h1]
      · intro h1
        refine ⟨?_, ?_, ?_⟩
        · intro body rest h2
          simp [ParseAny, hne, h0, h1, h2, blockStep]
        · intro bl rest decls h2 hbl h3
          have hstep : blockStep (cleanParse fuel parse (tmplBlock src)) = none := by
            rw [h2]
            cases bl with
            | nil => rfl
            | cons b bs =>
              cases bs with
              | nil => exact absurd rfl hbl
              | cons b2 bs2 => rfl
          simp [ParseAny, hne, h0, h1, hstep, h3]
        · intro h2
          refine ⟨?_, ?_⟩
          · intro decls h3
            simp [ParseAny, hne, h0, h1, h2, h3]
          · intro h3
            refine ⟨?_, ?_⟩
            · intro decls h4 hnb
              simp [ParseAny, hne, h0, h1, h2, h3, h4, hnb]
            · intro e h4
              simp [ParseAny, hne, h0, h1, h2, h3, h4]
  · intro me decls h0
    simp [parseAnyTail, h0]
  · intro me h0
    refine ⟨?_, ?_⟩
    · intro decls h1
      simp [parseAnyTail, h0, h1]
    · intro h1
      simp [parseAnyTail, h0, h1]

/-- Closed instance of `C2_parse_any_template_order`: with the
`{} else {}; if true {}` parser table, the parse falls through the block
template (two statements) and all later templates, ending in the
corrected statement error. -/
theorem C2_parse_any_template_order_witness :
    ParseAny 10 (fun _ => false) parseBlockTwo srcBlockTwo =
      parseAnyTail 10 parseBlockTwo srcBlockTwo
        (some (SubPosOffsets (.errs [⟨1, 26, "expected statement, found 'else'"⟩])
          [⟨1, 1, 22⟩])) :=
  ((((((C2_parse_any_template_order 10 (fun _ => false) parseBlockTwo
    srcBlockTwo).2.1 rfl).2 rfl).2.2 rfl).2.2 rfl).2 rfl).2
    (.errs [⟨1, 26, "expected statement, found 'else'"⟩]) rfl

/-- The parser collaborator for the pattern `foo)`: the real host parser
rejects every template of this pattern; the statement template
`package p; func _() { foo) }` reports `expected statement, found ')'` at
line 1, column 26 (the pattern text starts at column 23). -/
def parseFooErr : String → Except GoErr (List PNode) := fun _ =>
  .error (.errs [⟨1, 26, "expected statement, found ')'"⟩])

/-- C5: when no parse template accepts a pattern, the error returned is
the statement-template error with columns corrected back to the user's
pattern — subtracting the 22-column template prefix for errors on line 1
at or after column 1, and, in `parseExpr`, the recorded wildcard-prefix
insertion offsets — so the reported columns land back in the original
pattern; in particular the pattern `foo)` reports a parse error at
column 4. -/
theorem C5_offset_correction (fuel : Nat) (srcEmpty : String → Bool)
    (parse : String → Except GoErr (List PNode)) (src : String) (errList : List ScanErr)
    (hne : srcEmpty src = false)
    (h0 : cleanParse fuel parse src = none)
    (h1 : cleanParse fuel parse (tmplDecl src) = none)
    (h2 : blockStep (cleanParse fuel parse (tmplBlock src)) = none)
    (h3 : cleanParse fuel parse (tmplExprs src) = none)
    (h4 : parse (tmplStmts src) = .error (.errs errList))
    (h5 : cleanParse fuel parse (tmplType src) = none)
    (h6 : cleanParse fuel parse (tmplValSpec src) = none) :
    ParseAny fuel srcEmpty parse src =
      .ret none (some (.errs (errList.map (subPosOffsets1 [⟨1, 1, 22⟩])))) ∧
    (∀ off : GPosOffset, ∀ er : ScanErr,
      subPosOffsets1 [off] er =
        if er.line = off.atLine ∧ off.atCol ≤ er.col then
          { er with col := er.col - off.offset }
        else er) ∧
    ParseAny 10 (fun _ => false) parseFooErr "foo)" =
      .ret none (some (.errs [⟨1, 4, "expected statement, found ')'"⟩])) := by
  refine ⟨?_, ?_, rfl⟩
  · simp [ParseAny, hne, h0, h1, h2, h3, h4, parseAnyTail, h5, h6, SubPosOffsets]
  · intro off er
    rw [subPosOffsets1, List.foldl_cons, List.foldl_nil]
    by_cases hl : er.line = off.atLine
    · by_cases hc : er.col < off.atCol
      · rw [if_neg (by simp [hl]), if_pos hc, if_neg (by omega)]
      · rw [if_neg (by simp [hl]), if_neg hc, if_pos ⟨hl, by omega⟩]
    · rw [if_pos hl, if_neg (by simp [hl])]

/-- Closed instance of `C5_offset_correction` with the `foo)` parser
table; every hypothesis is discharged by computation. -/
theorem C5_offset_correction_witness :
    ParseAny 10 (fun _ => false) parseFooErr "foo)" =
      .ret none (some (.errs ([⟨1, 26, "expected statement, found ')'"⟩].map
        (subPosOffsets1 [⟨1, 1, 22⟩])))) ∧
    subPosOffsets1 [⟨1, 1, 22⟩] ⟨1, 26, "expected statement, found ')'"⟩ =
      ⟨1, 4, "expected statement, found ')'"⟩ := by
  have h := C5_offset_correction 10 (fun _ => false) parseFooErr "foo)"
    [⟨1, 26, "expected statement, found ')'"⟩] rfl rfl rfl rfl rfl rfl rfl rfl
  refine ⟨h.1, ?_⟩
  rw [h.2.1 ⟨1, 1, 22⟩ ⟨1, 26, "expected statement, found ')'"⟩]
  rfl

/-! ## The pattern tokenizer (`(*G).tokenize` and `(*G).wildcard`, `nls/parse.go`)

The host scanner is modelled as a stream of scan events: each `s.Scan()`
call yields a token `(pos, tok, lit)` and may first fire `onError`
callbacks, recorded in the event's `errs` list.  `next()` on an exhausted
stream yields the scanner's `EOF` token.  The `err` captured by `onError`
keeps the last non-whitelisted message; the two whitelisted messages are
the illegal-character reports for `$` and `~`. -/

inductive Tok where
  | eof
  | mul
  | ident
  | lbrace
  | colon
  | aggressive
  | other (n : Nat)
  deriving DecidableEq

structure ScanEv where
  errs : List (Nat × String)
  pos : Nat
  tok : Tok
  lit : String

structure FTok where
  pos : Nat
  tok : Tok
  lit : String

structure VarInfo where
  name : String
  any : Bool

inductive TokErr where
  | scanErr (pos : Nat) (msg : String)
  | dollarErr (pos : Nat) (tok : Tok)

/-- The two messages the `onError` callback swallows. -/
def allowedMsg (msg : String) : Bool :=
  msg = "illegal character U+0024 '$'" || msg = "illegal character U+007E '~'"

/-- Firing the `onError` callbacks of one scan: each non-whitelisted
message overwrites `err`. -/
def applyErrs (cur : Option TokErr) (errs : List (Nat × String)) : Option TokErr :=
  errs.foldl (fun acc pe => if allowedMsg pe.2 then acc else some (.scanErr pe.1 pe.2)) cur

/-- The wildcard-token prefix of the `nls` package. -/
def nlsWildPrefix : String := "gogrep_"

def wildLit (id : Nat) : String := nlsWildPrefix ++ toString id

inductive CaseStatus where
  | caseNone
  | caseNeedBlock
  | caseHere
  deriving DecidableEq

/-- The scanner token produced by `next()` past the end of input. -/
def eofEv : ScanEv := ⟨[], 0, .eof, ""⟩

/-- `next()`: one scan from the event stream. -/
def nextEv : List ScanEv → ScanEv × List ScanEv
  | [] => (eofEv, [])
  | e :: rest => (e, rest)

/-- `(*G).wildcard`: called just after a `$` token; pulls one token (two
when the first is `*`), requires an identifier, and produces the wildcard
token together with the recorded `varInfo`.  The function also reports
which events it consumed and the error state after their callbacks. -/
def wildcardF (vars : List VarInfo) (errSt : Option TokErr) (pos : Nat)
    (evs : List ScanEv) :
    Except TokErr (FTok × VarInfo) × Option TokErr × List ScanEv :=
  let (t, rest) := nextEv evs
  let errSt := applyErrs errSt t.errs
  if t.tok = .mul then
    let (t2, rest2) := nextEv rest
    let errSt := applyErrs errSt t2.errs
    if t2.tok = .ident then
      (.ok (⟨pos, .ident, wildLit vars.length⟩, ⟨t2.lit, true⟩), errSt, rest2)
    else
      (.error (.dollarErr t2.pos t2.tok), errSt, rest2)
  else if t.tok = .ident then
    (.ok (⟨pos, .ident, wildLit vars.length⟩, ⟨t.lit, false⟩), errSt, rest)
  else
    (.error (.dollarErr t.pos t.tok), errSt, rest)

/-- The scan loop of `(*G).tokenize`, fuel-indexed (each iteration
consumes at least one event, so `length + 1` fuel always suffices).  The
result is the `(toks, err)` return value — `toks` is `none` on the early
`return nil, err` of a failed wildcard — together with the recorded
wildcard table. -/
def tokenizeF : Nat → List ScanEv → Option TokErr → CaseStatus → List VarInfo →
    List FTok → Option (List FTok) × List VarInfo × Option TokErr
  | 0, _, errSt, _, vars, toks => (some toks, vars, errSt)
  | f + 1, evs, errSt, cs, vars, toks =>
    let (t, rest) := nextEv evs
    let errSt := applyErrs errSt t.errs
    if t.tok = .eof then (some toks, vars, errSt)
    else if t.lit = "$" then
      match wildcardF vars errSt t.pos rest with
      | (.error e, _, _) => (none, vars, some e)
      | (.ok (wt, info), errSt2, rest2) =>
        tokenizeF f rest2 errSt2 cs (vars ++ [info])
          (toks ++ (if cs = .caseHere then [⟨t.pos, .ident, "case"⟩] else []) ++ [wt] ++
            (if cs = .caseHere then
              [⟨t.pos, .colon, ""⟩, ⟨t.pos, .ident, "gogrep_body"⟩] else []))
    else if t.lit = "~" then
      tokenizeF f rest errSt cs vars (toks ++ [⟨t.pos, .aggressive, ""⟩])
    else
      let cs1 := if t.lit = "case" then CaseStatus.caseNone
        else if t.lit = "switch" ∨ t.lit = "select" then CaseStatus.caseNeedBlock
        else cs
      let cs2 := if t.tok = Tok.lbrace ∧ cs1 = CaseStatus.caseNeedBlock then
        CaseStatus.caseHere else cs1
      tokenizeF f rest errSt cs2 vars (toks ++ [⟨t.pos, t.tok, t.lit⟩])

/-- `(*G).tokenize` from the initial state. -/
def tokenize (evs : List ScanEv) : Option (List FTok) × List VarInfo × Option TokErr :=
  tokenizeF (evs.length + 1) evs none .caseNone [] []

/-- A scan event carrying a non-whitelisted scanner error. -/
def evHasBad (ev : ScanEv) : Bool := ev.errs.any (fun pe => ! allowedMsg pe.2)

/-- The events the loop can see: everything up to and including the first
`EOF` token. -/
def upToEof : List ScanEv → List ScanEv
  | [] => []
  | ev :: rest => if ev.tok = .eof then [ev] else ev :: upToEof rest

def hasScanErr (evs : List ScanEv) : Bool := (upToEof evs).any evHasBad

/-- A `$` sigil not followed (after an optional `*`) by an identifier
token, mirroring the tokenizer's consumption. -/
def dollarBad : List ScanEv → Bool
  | [] => false
  | ev :: rest =>
    if ev.tok = .eof then false
    else if ev.lit = "$" then
      match rest with
      | [] => true
      | t1 :: rest1 =>
        if t1.tok = .mul then
          match rest1 with
          | [] => true
          | t2 :: rest2 => if t2.tok = .ident then dollarBad rest2 else true
        else if t1.tok = .ident then dollarBad rest1 else true
    else dollarBad rest

theorem applyErrs_isSome (e : TokErr) (errs : List (Nat × String)) :
    (applyErrs (some e) errs).isSome = true := by
  induction errs generalizing e with
  | nil => rfl
  | cons pe rest ih =>
    rw [applyErrs, List.foldl_cons]
    by_cases h : allowedMsg pe.2
    · rw [if_pos h]
      exact ih e
    · rw [if_neg h]
      exact ih _

theorem applyErrs_ne_none_iff (cur : Option TokErr) (errs : List (Nat × String)) :
    applyErrs cur errs ≠ none ↔
      cur ≠ none ∨ errs.any (fun pe => ! allowedMsg pe.2) = true := by
  induction errs generalizing cur with
  | nil =>
    simp [applyErrs]
  | cons pe rest ih =>
    rw [applyErrs, List.foldl_cons]
    by_cases h : allowedMsg pe.2
    · rw [if_pos h]
      rw [show List.foldl (fun acc pe => if allowedMsg pe.2 then acc
        else some (TokErr.scanErr pe.1 pe.2)) cur rest = applyErrs cur rest from rfl, ih]
      simp [List.any_cons, h]
    · rw [if_neg h]
      constructor
      · intro _
        refine Or.inr ?_
        simp [List.any_cons, h]
      · intro _
        rw [show List.foldl (fun acc pe => if allowedMsg pe.2 then acc
          else some (TokErr.scanErr pe.1 pe.2)) (some (TokErr.scanErr pe.1 pe.2)) rest =
          applyErrs (some (TokErr.scanErr pe.1 pe.2)) rest from rfl]
        have := applyErrs_isSome (TokErr.scanErr pe.1 pe.2) rest
        intro hcontra
        rw [hcontra] at this
        simp at this

theorem hasScanErr_nil : hasScanErr [] = false := rfl

theorem hasScanErr_cons_eof {ev : ScanEv} {rest : List ScanEv} (h : ev.tok = .eof) :
    hasScanErr (ev :: rest) = evHasBad ev := by
  simp [hasScanErr, upToEof, h]

theorem hasScanErr_cons {ev : ScanEv} {rest : List ScanEv} (h : ¬ ev.tok = .eof) :
    hasScanErr (ev :: rest) = (evHasBad ev || hasScanErr rest) := by
  simp [hasScanErr, upToEof, h]


theorem applyErrs_nil (cur : Option TokErr) : applyErrs cur [] = cur := rfl

theorem wildcardF_nil (vars : List VarInfo) (errSt : Option TokErr) (pos : Nat) :
    wildcardF vars errSt pos [] = (.error (.dollarErr 0 .eof), errSt, []) := rfl

theorem wildcardF_mul_nil (vars : List VarInfo) (errSt : Option TokErr) (pos : Nat)
    {t1 : ScanEv} (hmul : t1.tok = .mul) :
    wildcardF vars errSt pos [t1] =
      (.error (.dollarErr 0 .eof), applyErrs errSt t1.errs, []) := by
  simp [wildcardF, nextEv, hmul, eofEv, applyErrs_nil]

theorem wildcardF_mul_ident (vars : List VarInfo) (errSt : Option TokErr) (pos : Nat)
    {t1 t2 : ScanEv} (rest2 : List ScanEv) (hmul : t1.tok = .mul) (hid : t2.tok = .ident) :
    wildcardF vars errSt pos (t1 :: t2 :: rest2) =
      (.ok (⟨pos, .ident, wildLit vars.length⟩, ⟨t2.lit, true⟩),
        applyErrs (applyErrs errSt t1.errs) t2.errs, rest2) := by
  simp [wildcardF, nextEv, hmul, hid]

theorem wildcardF_mul_bad (vars : List VarInfo) (errSt : Option TokErr) (pos : Nat)
    {t1 t2 : ScanEv} (rest2 : List ScanEv) (hmul : t1.tok = .mul) (hid : ¬ t2.tok = .ident) :
    wildcardF vars errSt pos (t1 :: t2 :: rest2) =
      (.error (.dollarErr t2.pos t2.tok),
        applyErrs (applyErrs errSt t1.errs) t2.errs, rest2) := by
  simp [wildcardF, nextEv, hmul, hid]

theorem wildcardF_ident (vars : List VarInfo) (errSt : Option TokErr) (pos : Nat)
    {t1 : ScanEv} (rest1 : List ScanEv) (hnmul : ¬ t1.tok = .mul) (hid : t1.tok = .ident) :
    wildcardF vars errSt pos (t1 :: rest1) =
      (.ok (⟨pos, .ident, wildLit vars.length⟩, ⟨t1.lit, false⟩),
        applyErrs errSt t1.errs, rest1) := by
  simp [wildcardF, nextEv, hnmul, hid]

theorem wildcardF_bad (vars : List VarInfo) (errSt : Option TokErr) (pos : Nat)
    {t1 : ScanEv} (rest1 : List ScanEv) (hnmul : ¬ t1.tok = .mul) (hid : ¬ t1.tok = .ident) :
    wildcardF vars errSt pos (t1 :: rest1) =
      (.error (.dollarErr t1.pos t1.tok), applyErrs errSt t1.errs, rest1) := by
  simp [wildcardF, nextEv, hnmul, hid]

theorem tokenizeF_nil (f : Nat) (errSt : Option TokErr) (cs : CaseStatus)
    (vars : List VarInfo) (toks : List FTok) :
    tokenizeF (f + 1) [] errSt cs vars toks = (some toks, vars, errSt) := rfl

theorem tokenizeF_eof (f : Nat) {ev : ScanEv} (rest : List ScanEv) (errSt : Option TokErr)
    (cs : CaseStatus) (vars : List VarInfo) (toks : List FTok) (heof : ev.tok = .eof) :
    tokenizeF (f + 1) (ev :: rest) errSt cs vars toks =
      (some toks, vars, applyErrs errSt ev.errs) := by
  simp [tokenizeF, nextEv, heof]

theorem tokenizeF_dollar (f : Nat) {ev : ScanEv} (rest : List ScanEv) (errSt : Option TokErr)
    (cs : CaseStatus) (vars : List VarInfo) (toks : List FTok)
    (heof : ¬ ev.tok = .eof) (hlit : ev.lit = "$") :
    tokenizeF (f + 1) (ev :: rest) errSt cs vars toks =
      (match wildcardF vars (applyErrs errSt ev.errs) ev.pos rest with
      | (.error e, _, _) => (none, vars, some e)
      | (.ok (wt, info), errSt2, rest2) =>
        tokenizeF f rest2 errSt2 cs (vars ++ [info])
          (toks ++ (if cs = .caseHere then [⟨ev.pos, .ident, "case"⟩] else []) ++ [wt] ++
            (if cs = .caseHere then
              [⟨ev.pos, .colon, ""⟩, ⟨ev.pos, .ident, "gogrep_body"⟩] else []))) := by
  simp [tokenizeF, nextEv, heof, hlit]

theorem tokenizeF_tilde (f : Nat) {ev : ScanEv} (rest : List ScanEv) (errSt : Option TokErr)
    (cs : CaseStatus) (vars : List VarInfo) (toks : List FTok)
    (heof : ¬ ev.tok = .eof) (hnd : ¬ ev.lit = "$") (hlit : ev.lit = "~") :
    tokenizeF (f + 1) (ev :: rest) errSt cs vars toks =
      tokenizeF f rest (applyErrs errSt ev.errs) cs vars
        (toks ++ [⟨ev.pos, .aggressive, ""⟩]) := by
  simp [tokenizeF, nextEv, heof, hnd, hlit]

theorem tokenizeF_plainTok (f : Nat) {ev : ScanEv} (rest : List ScanEv) (errSt : Option TokErr)
    (cs : CaseStatus) (vars : List VarInfo) (toks : List FTok)
    (heof : ¬ ev.tok = .eof) (hnd : ¬ ev.lit = "$") (hnt : ¬ ev.lit = "~") :
    tokenizeF (f + 1) (ev :: rest) errSt cs vars toks =
      tokenizeF f rest (applyErrs errSt ev.errs)
        (if ev.tok = Tok.lbrace ∧ (if ev.lit = "case" then CaseStatus.caseNone
          else if ev.lit = "switch" ∨ ev.lit = "select" then CaseStatus.caseNeedBlock
          else cs) = CaseStatus.caseNeedBlock then CaseStatus.caseHere
          else (if ev.lit = "case" then CaseStatus.caseNone
          else if ev.lit = "switch" ∨ ev.lit = "select" then CaseStatus.caseNeedBlock
          else cs)) vars (toks ++ [⟨ev.pos, ev.tok, ev.lit⟩]) := by
  simp [tokenizeF, nextEv, heof, hnd, hnt]
theorem dollarBad_nil : dollarBad [] = false := rfl

theorem dollarBad_eof (ev : ScanEv) (rest : List ScanEv) (h : ev.tok = Tok.eof) :
    dollarBad (ev :: rest) = false := by
  rw [dollarBad.eq_def]
  simp [h]

theorem dollarBad_dollar_nil (ev : ScanEv) (hne : ¬ ev.tok = Tok.eof)
    (hd : ev.lit = "$") : dollarBad [ev] = true := by
  rw [dollarBad.eq_def]
  simp [hne, hd]

theorem dollarBad_mul_nil (ev t1 : ScanEv) (hne : ¬ ev.tok = Tok.eof)
    (hd : ev.lit = "$") (hmul : t1.tok = Tok.mul) :
    dollarBad [ev, t1] = true := by
  rw [dollarBad.eq_def]
  simp [hne, hd, hmul]

theorem dollarBad_mul_ident (ev t1 t2 : ScanEv) (rest2 : List ScanEv)
    (hne : ¬ ev.tok = Tok.eof) (hd : ev.lit = "$") (hmul : t1.tok = Tok.mul)
    (hid : t2.tok = Tok.ident) :
    dollarBad (ev :: t1 :: t2 :: rest2) = dollarBad rest2 := by
  rw [dollarBad.eq_def]
  simp [hne, hd, hmul, hid]

theorem dollarBad_mul_bad (ev t1 t2 : ScanEv) (rest2 : List ScanEv)
    (hne : ¬ ev.tok = Tok.eof) (hd : ev.lit = "$") (hmul : t1.tok = Tok.mul)
    (hid : ¬ t2.tok = Tok.ident) :
    dollarBad (ev :: t1 :: t2 :: rest2) = true := by
  rw [dollarBad.eq_def]
  simp [hne, hd, hmul, hid]

theorem dollarBad_ident (ev t1 : ScanEv) (rest1 : List ScanEv)
    (hne : ¬ ev.tok = Tok.eof) (hd : ev.lit = "$") (hmul : ¬ t1.tok = Tok.mul)
    (hid : t1.tok = Tok.ident) :
    dollarBad (ev :: t1 :: rest1) = dollarBad rest1 := by
  rw [dollarBad.eq_def]
  simp [hne, hd, hmul, hid]

theorem dollarBad_bad (ev t1 : ScanEv) (rest1 : List ScanEv)
    (hne : ¬ ev.tok = Tok.eof) (hd : ev.lit = "$") (hmul : ¬ t1.tok = Tok.mul)
    (hid : ¬ t1.tok = Tok.ident) :
    dollarBad (ev :: t1 :: rest1) = true := by
  rw [dollarBad.eq_def]
  simp [hne, hd, hmul, hid]

theorem dollarBad_other (ev : ScanEv) (rest : List ScanEv)
    (hne : ¬ ev.tok = Tok.eof) (hd : ¬ ev.lit = "$") :
    dollarBad (ev :: rest) = dollarBad rest := by
  rw [dollarBad.eq_def]
  simp [hne, hd]

theorem tokenizeF_spec : ∀ (f : Nat) (evs : List ScanEv), evs.length < f →
    ∀ (errSt : Option TokErr) (cs : CaseStatus) (vars : List VarInfo) (toks : List FTok),
    ((tokenizeF f evs errSt cs vars toks).2.2 ≠ none ↔
      errSt ≠ none ∨ hasScanErr evs = true ∨ dollarBad evs = true) ∧
    ((tokenizeF f evs errSt cs vars toks).1 = none ↔ dollarBad evs = true) := by
  intro f
  induction f with
  | zero => intro evs hlen; omega
  | succ f ih =>
    intro evs hlen errSt cs vars toks
    cases evs with
    | nil =>
      rw [tokenizeF_nil]
      constructor
      · show errSt ≠ none ↔ _
        simp [hasScanErr_nil, dollarBad_nil]
      · simp [dollarBad_nil]
    | cons ev rest =>
      by_cases heof : ev.tok = .eof
      · rw [tokenizeF_eof f rest errSt cs vars toks heof]
        rw [dollarBad_eof ev rest heof]
        constructor
        · show applyErrs errSt ev.errs ≠ none ↔ _
          rw [hasScanErr_cons_eof heof, applyErrs_ne_none_iff]
          simp [evHasBad]
        · simp
      · by_cases hdol : ev.lit = "$"
        · rw [tokenizeF_dollar f rest errSt cs vars toks heof hdol]
          cases rest with
          | nil =>
            rw [wildcardF_nil]
            rw [dollarBad_dollar_nil ev heof hdol]
            exact ⟨by simp, by simp⟩
          | cons t1 rest1 =>
            by_cases hmul : t1.tok = .mul
            · have ht1 : ¬ t1.tok = Tok.eof := by rw [hmul]; intro h; cases h
              cases rest1 with
              | nil =>
                rw [wildcardF_mul_nil _ _ _ hmul]
                rw [dollarBad_mul_nil ev t1 heof hdol hmul]
                exact ⟨by simp, by simp⟩
              | cons t2 rest2 =>
                by_cases hid : t2.tok = .ident
                · have ht2 : ¬ t2.tok = Tok.eof := by rw [hid]; intro h; cases h
                  rw [wildcardF_mul_ident _ _ _ rest2 hmul hid]
                  have hlen2 : rest2.length < f := by
                    simp only [List.length_cons] at hlen
                    omega
                  have hrec := ih rest2 hlen2
                    (applyErrs (applyErrs (applyErrs errSt ev.errs) t1.errs) t2.errs) cs
                    (vars ++ [⟨t2.lit, true⟩])
                    (toks ++ (if cs = .caseHere then [⟨ev.pos, .ident, "case"⟩] else []) ++
                      [⟨ev.pos, .ident, wildLit vars.length⟩] ++
                      (if cs = .caseHere then
                        [⟨ev.pos, .colon, ""⟩, ⟨ev.pos, .ident, "gogrep_body"⟩] else []))
                  rw [dollarBad_mul_ident ev t1 t2 rest2 heof hdol hmul hid]
                  rw [hasScanErr_cons heof, hasScanErr_cons ht1, hasScanErr_cons ht2]
                  refine ⟨?_, hrec.2⟩
                  rw [hrec.1, applyErrs_ne_none_iff, applyErrs_ne_none_iff,
                    applyErrs_ne_none_iff]
                  simp only [evHasBad, Bool.or_eq_true]
                  tauto
                · rw [wildcardF_mul_bad _ _ _ rest2 hmul hid]
                  rw [dollarBad_mul_bad ev t1 t2 rest2 heof hdol hmul hid]
                  exact ⟨by simp, by simp⟩
            · by_cases hid : t1.tok = .ident
              · have ht1 : ¬ t1.tok = Tok.eof := by rw [hid]; intro h; cases h
                rw [wildcardF_ident _ _ _ rest1 hmul hid]
                have hlen1 : rest1.length < f := by
                  simp only [List.length_cons] at hlen
                  omega
                rw [dollarBad_ident ev t1 rest1 heof hdol hmul hid]
                rw [hasScanErr_cons heof, hasScanErr_cons ht1]
                refine ⟨?_, (ih rest1 hlen1 _ _ _ _).2⟩
                rw [(ih rest1 hlen1 _ _ _ _).1, applyErrs_ne_none_iff,
                  applyErrs_ne_none_iff]
                simp only [evHasBad, Bool.or_eq_true]
                tauto
              · rw [wildcardF_bad _ _ _ rest1 hmul hid]
                rw [dollarBad_bad ev t1 rest1 heof hdol hmul hid]
                exact ⟨by simp, by simp⟩
        · have hlenr : rest.length < f := by
            simp only [List.length_cons] at hlen
            omega
          rw [dollarBad_other ev rest heof hdol]
          rw [hasScanErr_cons heof]
          by_cases htil : ev.lit = "~"
          · rw [tokenizeF_tilde f rest errSt cs vars toks heof hdol htil]
            refine ⟨?_, (ih rest hlenr _ _ _ _).2⟩
            rw [(ih rest hlenr _ _ _ _).1, applyErrs_ne_none_iff]
            simp only [evHasBad, Bool.or_eq_true]
            tauto
          · rw [tokenizeF_plainTok f rest errSt cs vars toks heof hdol htil]
            refine ⟨?_, (ih rest hlenr _ _ _ _).2⟩
            rw [(ih rest hlenr _ _ _ _).1, applyErrs_ne_none_iff]
            simp only [evHasBad, Bool.or_eq_true]
            tauto

/-- The events strictly before the first `EOF` token. -/
def preEof : List ScanEv → List ScanEv
  | [] => []
  | ev :: rest => if ev.tok = Tok.eof then [] else ev :: preEof rest

theorem tokenizeF_passthrough : ∀ (f : Nat) (evs : List ScanEv), evs.length < f →
    (∀ ev ∈ preEof evs, ¬ ev.lit = "$" ∧ ¬ ev.lit = "~") →
    ∀ (errSt : Option TokErr) (cs : CaseStatus) (vars : List VarInfo) (toks : List FTok),
    (tokenizeF f evs errSt cs vars toks).1 =
      some (toks ++ (preEof evs).map (fun ev => FTok.mk ev.pos ev.tok ev.lit)) ∧
    (tokenizeF f evs errSt cs vars toks).2.1 = vars := by
  intro f
  induction f with
  | zero => intro evs hlen; omega
  | succ f ih =>
    intro evs hlen hplain errSt cs vars toks
    cases evs with
    | nil =>
      rw [tokenizeF_nil]
      simp [preEof]
    | cons ev rest =>
      by_cases heof : ev.tok = .eof
      · rw [tokenizeF_eof f rest errSt cs vars toks heof]
        rw [show preEof (ev :: rest) = [] by rw [preEof]; rw [if_pos heof]]
        simp
      · have hpre : preEof (ev :: rest) = ev :: preEof rest := by
          rw [preEof]; rw [if_neg heof]
        have hev := hplain ev (by rw [hpre]; exact List.mem_cons_self ev _)
        have hrest : ∀ e ∈ preEof rest, ¬ e.lit = "$" ∧ ¬ e.lit = "~" := by
          intro e he
          exact hplain e (by rw [hpre]; exact List.mem_cons_of_mem ev he)
        have hlenr : rest.length < f := by
          simp only [List.length_cons] at hlen
          omega
        rw [tokenizeF_plainTok f rest errSt cs vars toks heof hev.1 hev.2, hpre]
        have hrec := ih rest hlenr hrest (applyErrs errSt ev.errs)
          (if ev.tok = Tok.lbrace ∧
              (if ev.lit = "case" then CaseStatus.caseNone
               else if ev.lit = "switch" ∨ ev.lit = "select" then CaseStatus.caseNeedBlock
               else cs) = CaseStatus.caseNeedBlock then CaseStatus.caseHere
           else if ev.lit = "case" then CaseStatus.caseNone
           else if ev.lit = "switch" ∨ ev.lit = "select" then CaseStatus.caseNeedBlock
           else cs)
          vars (toks ++ [⟨ev.pos, ev.tok, ev.lit⟩])
        refine ⟨?_, hrec.2⟩
        rw [hrec.1]
        simp

/-- C7: `(*G).tokenize` fails if and only if either the host scanner
reports an error other than the two whitelisted illegal-character
messages for `$` and `~` (`hasScanErr`), or a `$` sigil — after an
optional `*` — is not followed by an identifier token (`dollarBad`);
the early `nil` token return happens exactly in the `$` case, where
`(*G).wildcard` reports the error at the offending token's position
carrying that token; and a pattern with no `$`/`~` sigils always yields
the full scanned token stream verbatim. -/
theorem C7_tokenize_errors (evs : List ScanEv) :
    ((tokenize evs).2.2 ≠ none ↔ hasScanErr evs = true ∨ dollarBad evs = true) ∧
    ((tokenize evs).1 = none ↔ dollarBad evs = true) ∧
    (∀ (vars : List VarInfo) (errSt : Option TokErr) (pos : Nat) (t : ScanEv)
        (rest : List ScanEv), ¬ t.tok = Tok.mul → ¬ t.tok = Tok.ident →
      (wildcardF vars errSt pos (t :: rest)).1 =
        Except.error (TokErr.dollarErr t.pos t.tok)) ∧
    (∀ (vars : List VarInfo) (errSt : Option TokErr) (pos : Nat) (t t2 : ScanEv)
        (rest : List ScanEv), t.tok = Tok.mul → ¬ t2.tok = Tok.ident →
      (wildcardF vars errSt pos (t :: t2 :: rest)).1 =
        Except.error (TokErr.dollarErr t2.pos t2.tok)) ∧
    ((∀ ev ∈ preEof evs, ¬ ev.lit = "$" ∧ ¬ ev.lit = "~") →
      (tokenize evs).1 =
        some ((preEof evs).map (fun ev => FTok.mk ev.pos ev.tok ev.lit))) := by
  have hspec := tokenizeF_spec (evs.length + 1) evs (Nat.lt_succ_self _)
    none CaseStatus.caseNone [] []
  refine ⟨?_, ?_, ?_, ?_, ?_⟩
  · rw [tokenize]
    rw [hspec.1]
    simp
  · rw [tokenize]
    exact hspec.2
  · intro vars errSt pos t rest hnmul hnid
    rw [wildcardF_bad vars errSt pos rest hnmul hnid]
  · intro vars errSt pos t t2 rest hmul hnid
    rw [wildcardF_mul_bad vars errSt pos rest hmul hnid]
  · intro hplain
    rw [tokenize]
    rw [(tokenizeF_passthrough (evs.length + 1) evs (Nat.lt_succ_self _) hplain
      none CaseStatus.caseNone [] []).1]
    simp

/-- Closed instance of `C7_tokenize_errors`: the event stream for the
pattern `$+` — a `$` sigil followed by a non-identifier token — fails
with the dollar error at the offending token, returns no token list,
and the sigil-free stream for `f(x)` passes through verbatim. -/
theorem C7_tokenize_errors_witness :
    (tokenize [⟨[], 1, .other 0, "$"⟩, ⟨[], 2, .other 3, "+"⟩, ⟨[], 3, .eof, ""⟩]).1 =
      none ∧
    (tokenize [⟨[], 1, .other 0, "$"⟩, ⟨[], 2, .other 3, "+"⟩, ⟨[], 3, .eof, ""⟩]).2.2 ≠
      none ∧
    (wildcardF [] none 1 [⟨[], 2, .other 3, "+"⟩, ⟨[], 3, .eof, ""⟩]).1 =
      Except.error (TokErr.dollarErr 2 (.other 3)) ∧
    (tokenize [⟨[], 1, .ident, "f"⟩, ⟨[], 2, .other 7, "("⟩, ⟨[], 3, .ident, "x"⟩,
        ⟨[], 4, .other 8, ")"⟩, ⟨[], 5, .eof, ""⟩]).1 =
      some [⟨1, .ident, "f"⟩, ⟨2, .other 7, "("⟩, ⟨3, .ident, "x"⟩, ⟨4, .other 8, ")"⟩] := by
  refine ⟨?_, ?_, ?_, ?_⟩
  · exact ((C7_tokenize_errors _).2.1).mpr (by decide)
  · exact ((C7_tokenize_errors _).1).mpr (Or.inr (by decide))
  · exact (C7_tokenize_errors []).2.2.1 [] none 1 ⟨[], 2, .other 3, "+"⟩
      [⟨[], 3, .eof, ""⟩] (by decide) (by decide)
  · exact (C7_tokenize_errors _).2.2.2.2 (by decide)
